import Mathlib

/-!
# Verification of the static Huffman coder (`19_huffman.py`)

Shallow embedding of the Huffman encoder/decoder:

* symbols are `Char`, texts are `List Char`;
* bit strings are `List Bool` (`false` for the character `0`, `true` for `1`);
* Python dictionaries are insertion-ordered association lists (`dictSet`
  updates in place, appends new keys at the end; `dictGet?` looks a key up);
* `HuffmanNode` mirrors the Python class: an optional character, a frequency
  and optional children;
* the `heapq` functions (`heappush`, `heappop` with the internal `_siftdown`
  and `_siftup`) are modelled literally, using a fuel argument that bounds the
  number of loop iterations (the fuel is always sufficient: `_siftdown` walks
  up from `pos` towards `startpos`, `_siftup` walks down below `endpos`);
* exceptions are modelled by `Option` (a `KeyError` in `encode` would give
  `none`).
-/

/-- Python dict lookup: the value stored for key `k`, if present. -/
def dictGet? {α β : Type} [DecidableEq α] : List (α × β) → α → Option β
  | [], _ => none
  | (k, v) :: rest, k0 => if k0 = k then some v else dictGet? rest k0

/-- Python dict assignment `d[k] = v`: update in place if the key is present,
otherwise append the binding at the end (insertion order is preserved). -/
def dictSet {α β : Type} [DecidableEq α] : List (α × β) → α → β → List (α × β)
  | [], k, v => [(k, v)]
  | (k1, v1) :: rest, k, v =>
      if k = k1 then (k1, v) :: rest else (k1, v1) :: dictSet rest k v

/-- A node of the Huffman tree, mirroring the Python `HuffmanNode` class.
The Python class stores `char : Optional[str]` plus optional children; the
program only ever builds two shapes — a leaf (`char` set, no children, from
the seeding loop) and an internal node (`char = None`, both children set,
from the merge step) — so the embedding uses one constructor per shape. -/
inductive HuffmanNode : Type where
  | leaf (char : Char) (freq : Nat)
  | node (freq : Nat) (left : HuffmanNode) (right : HuffmanNode)
deriving DecidableEq

/-- The `freq` field. -/
def HuffmanNode.freq : HuffmanNode → Nat
  | .leaf _ f => f
  | .node f _ _ => f

/-- A placeholder node used only as the default of out-of-range list reads
(all reads are in range in the verified executions). -/
def nodeDefault : HuffmanNode := .leaf 'a' 0

/-- `heap[i]` (out-of-range reads return the placeholder). -/
def hGet (heap : List HuffmanNode) (i : Nat) : HuffmanNode :=
  heap.getD i nodeDefault

/-- `HuffmanNode.__lt__`: comparison by frequency only. -/
def nodeLt (a b : HuffmanNode) : Prop := a.freq < b.freq

instance : DecidablePred fun p : HuffmanNode × HuffmanNode => nodeLt p.1 p.2 :=
  fun p => inferInstanceAs (Decidable (p.1.freq < p.2.freq))

instance (a b : HuffmanNode) : Decidable (nodeLt a b) :=
  inferInstanceAs (Decidable (a.freq < b.freq))

/-- CPython `heapq._siftdown(heap, startpos, pos)`: bubble `newitem` up while
it is smaller than its parent.  `fuel` bounds the number of iterations; since
`pos` strictly decreases, any `fuel ≥ pos` is enough. -/
def siftdownAux (fuel : Nat) (heap : List HuffmanNode)
    (startpos pos : Nat) (newitem : HuffmanNode) : List HuffmanNode :=
  match fuel with
  | 0 => heap.set pos newitem
  | fuel + 1 =>
      if startpos < pos then
        let parentpos := (pos - 1) / 2
        let parent := hGet heap parentpos
        if newitem.freq < parent.freq then
          siftdownAux fuel (heap.set pos parent) startpos parentpos newitem
        else heap.set pos newitem
      else heap.set pos newitem

/-- CPython `heapq._siftdown`. -/
def siftdown (heap : List HuffmanNode) (startpos pos : Nat) : List HuffmanNode :=
  siftdownAux pos heap startpos pos (hGet heap pos)

/-- CPython `heapq._siftup(heap, pos)`, descent phase: move the smaller child
up until a childless position is reached, then place `newitem` there and call
`_siftdown`.  `fuel` bounds the iterations; `fuel ≥ endpos` is enough. -/
def siftupAux (fuel : Nat) (heap : List HuffmanNode)
    (endpos startpos pos : Nat) (newitem : HuffmanNode) : List HuffmanNode :=
  match fuel with
  | 0 => siftdownAux pos (heap.set pos newitem) startpos pos newitem
  | fuel + 1 =>
      let childpos := 2 * pos + 1
      if childpos < endpos then
        let rightpos := childpos + 1
        let childpos :=
          if rightpos < endpos ∧
              ¬ (hGet heap childpos).freq < (hGet heap rightpos).freq then
            rightpos
          else childpos
        siftupAux fuel (heap.set pos (hGet heap childpos))
          endpos startpos childpos newitem
      else siftdownAux pos (heap.set pos newitem) startpos pos newitem

/-- CPython `heapq._siftup(heap, pos)`. -/
def siftup (heap : List HuffmanNode) (pos : Nat) : List HuffmanNode :=
  siftupAux heap.length heap heap.length pos pos (hGet heap pos)

/-- CPython `heapq.heappush`: append the item and sift it up into place. -/
def heappush (heap : List HuffmanNode) (item : HuffmanNode) : List HuffmanNode :=
  siftdown (heap ++ [item]) 0 heap.length

/-- CPython `heapq.heappop`: remove the last element; if the heap is still
non-empty, return the root, move the last element to the root and sift it
down.  `none` models the `IndexError` on an empty heap (never hit here). -/
def heappop (heap : List HuffmanNode) : Option (HuffmanNode × List HuffmanNode) :=
  match heap.getLast?, heap.dropLast with
  | none, _ => none
  | some lastelt, [] => some (lastelt, [])
  | some lastelt, h :: t => some (h, siftup (lastelt :: t) 0)

/-- `build_frequency_table`: `dict(Counter(text))` — counts occurrences,
keys in first-occurrence order. -/
def build_frequency_table (text : List Char) : List (Char × Nat) :=
  text.foldl (fun d c => dictSet d c ((dictGet? d c).getD 0 + 1)) []

/-- The merged node of one iteration of the `while len(heap) > 1` loop of
`build_huffman_tree`: `HuffmanNode(None, node1.freq + node2.freq)` with
`left = node1`, `right = node2`. -/
def mergeStep (n1 n2 : HuffmanNode) : HuffmanNode :=
  .node (n1.freq + n2.freq) n1 n2

/-- The `while len(heap) > 1` loop of `build_huffman_tree`, with a fuel bound
on the number of iterations (each iteration shrinks the heap by one, so
`fuel = heap.length` is enough). -/
def buildLoop (fuel : Nat) (heap : List HuffmanNode) : List HuffmanNode :=
  match fuel with
  | 0 => heap
  | fuel + 1 =>
      if 1 < heap.length then
        match heappop heap with
        | none => heap
        | some (n1, h1) =>
            match heappop h1 with
            | none => heap
            | some (n2, h2) => buildLoop fuel (heappush h2 (mergeStep n1 n2))
      else heap

/-- `build_huffman_tree`: seed a heap with a leaf per table entry, merge until
one node remains.  `none` for an empty table. -/
def build_huffman_tree (freq_table : List (Char × Nat)) : Option HuffmanNode :=
  if freq_table = [] then none
  else
    let heap := freq_table.foldl
      (fun h cf => heappush h (.leaf cf.1 cf.2)) []
    (buildLoop heap.length heap).head?

/-- The recursive body of `generate_codes`, with the two dictionaries
(`self.codes`, `self.reverse_codes`) passed as state: at a node carrying a
character, record the accumulated code and stop; otherwise recurse left with
bit `0`, then right with bit `1`. -/
def genCodes (node : HuffmanNode) (code : List Bool)
    (st : List (Char × List Bool) × List (List Bool × Char)) :
    List (Char × List Bool) × List (List Bool × Char) :=
  match node with
  | .leaf c _ => (dictSet st.1 c code, dictSet st.2 code c)
  | .node _ l r => genCodes r (code ++ [true]) (genCodes l (code ++ [false]) st)

/-- `generate_codes`: returns at once on `None`, otherwise runs `genCodes`. -/
def generate_codes (node : Option HuffmanNode) (code : List Bool)
    (codes : List (Char × List Bool)) (rcodes : List (List Bool × Char)) :
    List (Char × List Bool) × List (List Bool × Char) :=
  match node with
  | none => (codes, rcodes)
  | some n => genCodes n code (codes, rcodes)

/-- The coder state: the two dictionaries held by `StaticHuffmanCoder`. -/
structure Coder : Type where
  codes : List (Char × List Bool)
  rcodes : List (List Bool × Char)
deriving DecidableEq

/-- A freshly constructed `StaticHuffmanCoder` (both dictionaries empty). -/
def freshCoder : Coder := ⟨[], []⟩

/-- The encoding loop of `encode`: concatenate `self.codes[char]` over the
text; `none` models the `KeyError` raised on a missing symbol. -/
def encodeText (codes : List (Char × List Bool)) (text : List Char) :
    Option (List Bool) :=
  text.foldl
    (fun acc c => do
      let bits ← acc
      let cw ← dictGet? codes c
      pure (bits ++ cw))
    (some [])

/-- `StaticHuffmanCoder.encode`: empty text returns `("", {})` untouched;
otherwise build the frequency table and the tree, regenerate both code
dictionaries from scratch, and concatenate the codewords.  The returned
`Option` is the function result (`none` = exception), paired with the final
coder state. -/
def encode (st : Coder) (text : List Char) :
    Option (List Bool × List (Char × Nat)) × Coder :=
  if text = [] then (some ([], []), st)
  else
    let ft := build_frequency_table text
    let root := build_huffman_tree ft
    let p := generate_codes root [] [] []
    let st1 : Coder := ⟨p.1, p.2⟩
    match encodeText p.1 text with
    | none => (none, st1)
    | some bits => (some (bits, ft), st1)

/-- The decoding loop of `decode`: grow `current_code` bit by bit; whenever it
is a key of `reverse_codes`, emit the symbol and reset. -/
def decodeLoop (rcodes : List (List Bool × Char)) :
    List Bool → List Bool → List Char → List Char
  | [], _, acc => acc
  | b :: rest, cur, acc =>
      let cur1 := cur ++ [b]
      match dictGet? rcodes cur1 with
      | some ch => decodeLoop rcodes rest [] (acc ++ [ch])
      | none => decodeLoop rcodes rest cur1 acc

/-- `StaticHuffmanCoder.decode`: empty bits or empty frequency table return
`""`; the code dictionaries are rebuilt from `freq_table` only when
`self.codes` is empty; then the bits are scanned greedily.  Returns the
decoded text and the final coder state; the function never raises. -/
def decode (st : Coder) (encoded_bits : List Bool) (freq_table : List (Char × Nat)) :
    List Char × Coder :=
  if encoded_bits = [] ∨ freq_table = [] then ([], st)
  else
    let st1 :=
      if st.codes = [] then
        let root := build_huffman_tree freq_table
        let p := generate_codes root [] [] []
        (⟨p.1, p.2⟩ : Coder)
      else st
    (decodeLoop st1.rcodes encoded_bits [] [], st1)

/-! ## Basic facts about list reads, writes and multisets -/

theorem hGet_set_self {l : List HuffmanNode} {i : Nat} (x : HuffmanNode)
    (h : i < l.length) : hGet (l.set i x) i = x := by
  simp [hGet, List.getD_eq_getElem?_getD, List.getElem?_set_self, h]

theorem hGet_set_ne {l : List HuffmanNode} {i j : Nat} (x : HuffmanNode)
    (h : i ≠ j) : hGet (l.set i x) j = hGet l j := by
  simp [hGet, List.getD_eq_getElem?_getD, List.getElem?_set_ne h]

theorem multiset_set {l : List HuffmanNode} {i : Nat} (x : HuffmanNode)
    (h : i < l.length) :
    (↑(l.set i x) : Multiset HuffmanNode) + {hGet l i} = ↑l + {x} := by
  have hdec := List.set_eq_take_cons_drop x h
  have hli : hGet l i = l[i] := by
    simp [hGet, List.getD_eq_getElem?_getD, List.getElem?_eq_getElem h]
  have hl : l = l.take i ++ l[i] :: l.drop (i + 1) := by
    conv_lhs => rw [← List.take_append_drop i l]
    rw [List.drop_eq_getElem_cons h]
  rw [hdec, hli]
  conv_rhs => rw [hl]
  have h1 : (↑(l.take i ++ x :: l.drop (i + 1)) : Multiset HuffmanNode) =
      ↑(l.take i) + (x ::ₘ ↑(l.drop (i + 1))) := by
    simp [← Multiset.coe_add]
  have h2 : (↑(l.take i ++ l[i] :: l.drop (i + 1)) : Multiset HuffmanNode) =
      ↑(l.take i) + (l[i] ::ₘ ↑(l.drop (i + 1))) := by
    simp [← Multiset.coe_add]
    rw [Multiset.coe_add, List.take_append_drop]
  rw [h1, h2, ← Multiset.singleton_add x, ← Multiset.singleton_add l[i]]
  ac_rfl

theorem siftdownAux_length (fuel : Nat) (l : List HuffmanNode)
    (sp pos : Nat) (item : HuffmanNode) :
    (siftdownAux fuel l sp pos item).length = l.length := by
  induction fuel generalizing l pos with
  | zero => simp [siftdownAux]
  | succ fuel ih =>
      simp only [siftdownAux]
      split
      · split
        · rw [ih]; simp
        · simp
      · simp

theorem siftdownAux_perm (fuel : Nat) (l : List HuffmanNode)
    (sp pos : Nat) (item : HuffmanNode) (h : pos < l.length) :
    (↑(siftdownAux fuel l sp pos item) : Multiset HuffmanNode) + {hGet l pos} =
      ↑l + {item} := by
  induction fuel generalizing l pos with
  | zero => simpa [siftdownAux] using multiset_set item h
  | succ fuel ih =>
      simp only [siftdownAux]
      split
      · split
        · rename_i hsp hlt
          have hppos : (pos - 1) / 2 < pos := by omega
          have hplen : (pos - 1) / 2 < (l.set pos (hGet l ((pos - 1) / 2))).length := by
            simp; omega
          have hrec := ih (l.set pos (hGet l ((pos - 1) / 2))) ((pos - 1) / 2) hplen
          have hne : pos ≠ (pos - 1) / 2 := by omega
          rw [hGet_set_ne _ hne] at hrec
          have hset := multiset_set (hGet l ((pos - 1) / 2)) h
          -- combine: rec + parent = set + item ; set + old = l + parent
          have : (↑(siftdownAux fuel (l.set pos (hGet l ((pos - 1) / 2))) sp
              ((pos - 1) / 2) item) : Multiset HuffmanNode) + {hGet l ((pos - 1) / 2)}
              + {hGet l pos} = ↑l + {item} + {hGet l ((pos - 1) / 2)} := by
            rw [hrec]
            calc (↑(l.set pos (hGet l ((pos - 1) / 2))) : Multiset HuffmanNode)
                + {item} + {hGet l pos}
                = (↑(l.set pos (hGet l ((pos - 1) / 2))) : Multiset HuffmanNode)
                  + {hGet l pos} + {item} := by ac_rfl
              _ = ↑l + {hGet l ((pos - 1) / 2)} + {item} := by rw [hset]
              _ = ↑l + {item} + {hGet l ((pos - 1) / 2)} := by ac_rfl
          have hcancel := this
          rw [show (↑(siftdownAux fuel (l.set pos (hGet l ((pos - 1) / 2))) sp
              ((pos - 1) / 2) item) : Multiset HuffmanNode) + {hGet l ((pos - 1) / 2)}
              + {hGet l pos} = ↑(siftdownAux fuel (l.set pos (hGet l ((pos - 1) / 2))) sp
              ((pos - 1) / 2) item) + {hGet l pos} + {hGet l ((pos - 1) / 2)} by ac_rfl]
            at hcancel
          exact add_right_cancel hcancel
        · exact multiset_set item h
      · exact multiset_set item h

theorem siftupAux_length (fuel : Nat) (l : List HuffmanNode)
    (ep sp pos : Nat) (item : HuffmanNode) :
    (siftupAux fuel l ep sp pos item).length = l.length := by
  induction fuel generalizing l pos with
  | zero => simp [siftupAux, siftdownAux_length]
  | succ fuel ih =>
      simp only [siftupAux]
      split
      · rw [ih]; simp
      · rw [siftdownAux_length]; simp

theorem siftupAux_perm (fuel : Nat) (l : List HuffmanNode)
    (ep sp pos : Nat) (item : HuffmanNode) (h : pos < l.length)
    (hep : ep ≤ l.length) :
    (↑(siftupAux fuel l ep sp pos item) : Multiset HuffmanNode) + {hGet l pos} =
      ↑l + {item} := by
  induction fuel generalizing l pos with
  | zero =>
      simp only [siftupAux]
      have h2 : pos < (l.set pos item).length := by simp [h]
      have := siftdownAux_perm pos (l.set pos item) sp pos item h2
      rw [hGet_set_self item h] at this
      have hset := multiset_set item h
      rw [add_right_cancel this]
      exact hset
  | succ fuel ih =>
      simp only [siftupAux]
      split
      · rename_i hchild
        set cp := if 2 * pos + 1 + 1 < ep ∧
            ¬ (hGet l (2 * pos + 1)).freq < (hGet l (2 * pos + 1 + 1)).freq then
            2 * pos + 1 + 1 else 2 * pos + 1 with hcp
        have hcpb : pos < cp ∧ cp < l.length := by
          rw [hcp]
          split
          · rename_i hc
            exact ⟨by omega, by omega⟩
          · exact ⟨by omega, by omega⟩
        have hlen2 : cp < (l.set pos (hGet l cp)).length := by
          simp [hcpb.2]
        have hep2 : ep ≤ (l.set pos (hGet l cp)).length := by simp [hep]
        have hihn := ih (l.set pos (hGet l cp)) cp hlen2 hep2
        have hne : pos ≠ cp := Nat.ne_of_lt hcpb.1
        rw [hGet_set_ne _ hne] at hihn
        have hset := multiset_set (hGet l cp) h
        have key : (↑(siftupAux fuel (l.set pos (hGet l cp)) ep sp cp item) :
            Multiset HuffmanNode) + {hGet l pos} + {hGet l cp} =
            ↑l + {item} + {hGet l cp} := by
          calc (↑(siftupAux fuel (l.set pos (hGet l cp)) ep sp cp item) :
              Multiset HuffmanNode) + {hGet l pos} + {hGet l cp}
              = ↑(siftupAux fuel (l.set pos (hGet l cp)) ep sp cp item)
                + {hGet l cp} + {hGet l pos} := by ac_rfl
            _ = ↑(l.set pos (hGet l cp)) + {item} + {hGet l pos} := by rw [hihn]
            _ = ↑(l.set pos (hGet l cp)) + {hGet l pos} + {item} := by ac_rfl
            _ = ↑l + {hGet l cp} + {item} := by rw [hset]
            _ = ↑l + {item} + {hGet l cp} := by ac_rfl
        exact add_right_cancel key
      · have h2 : pos < (l.set pos item).length := by simp [h]
        have := siftdownAux_perm pos (l.set pos item) sp pos item h2
        rw [hGet_set_self item h] at this
        have hset := multiset_set item h
        rw [add_right_cancel this]
        exact hset

theorem heappush_length (h : List HuffmanNode) (x : HuffmanNode) :
    (heappush h x).length = h.length + 1 := by
  simp [heappush, siftdown, siftdownAux_length]

theorem heappush_perm (h : List HuffmanNode) (x : HuffmanNode) :
    (↑(heappush h x) : Multiset HuffmanNode) = ↑h + {x} := by
  have hlen : h.length < (h ++ [x]).length := by simp
  have := siftdownAux_perm h.length (h ++ [x]) 0 h.length
    (hGet (h ++ [x]) h.length) hlen
  have hres := add_right_cancel this
  rw [heappush, siftdown, hres]
  simp [← Multiset.coe_add]

theorem heappop_concat (hd : HuffmanNode) (t : List HuffmanNode)
    (b : HuffmanNode) :
    heappop ((hd :: t) ++ [b]) = some (hd, siftup (b :: t) 0) := by
  simp only [heappop, List.getLast?_concat, List.dropLast_concat]

theorem heappop_single (b : HuffmanNode) : heappop [b] = some (b, []) := rfl

theorem heappop_eq_none_iff (h : List HuffmanNode) :
    heappop h = none ↔ h = [] := by
  rcases List.eq_nil_or_concat h with rfl | ⟨L, b, rfl⟩
  · simp [heappop]
  · cases L with
    | nil => simp [List.concat_eq_append, heappop_single]
    | cons hd t =>
        have hc := heappop_concat hd t b
        simp only [List.concat_eq_append, List.cons_append] at hc ⊢
        simp [hc]

theorem heappop_spec {h h2 : List HuffmanNode} {x : HuffmanNode}
    (hp : heappop h = some (x, h2)) :
    (↑h : Multiset HuffmanNode) = x ::ₘ ↑h2 ∧ h2.length + 1 = h.length := by
  rcases List.eq_nil_or_concat h with rfl | ⟨L, b, rfl⟩
  · simp [heappop] at hp
  · simp only [List.concat_eq_append] at hp ⊢
    cases L with
    | nil =>
        rw [List.nil_append, heappop_single] at hp
        obtain ⟨rfl, rfl⟩ := Prod.mk.injEq .. ▸ (Option.some.injEq .. ▸ hp)
        simp
    | cons hd t =>
        have hc := heappop_concat hd t b
        simp only [List.cons_append] at hc hp ⊢
        rw [hc] at hp
        have hx : x = hd := by
          have := congrArg (fun o => (Option.getD o (nodeDefault, [])).1) hp
          simpa using this.symm
        have hh2 : h2 = siftup (b :: t) 0 := by
          have := congrArg (fun o => (Option.getD o (nodeDefault, [])).2) hp
          simpa using this.symm
        subst hx; subst hh2
        have hl0 : (0 : Nat) < (b :: t).length := by simp
        have hget0 : hGet (b :: t) 0 = b := by simp [hGet]
        have hperm := siftupAux_perm (b :: t).length (b :: t) (b :: t).length
          0 0 (hGet (b :: t) 0) hl0 (le_refl _)
        rw [hget0] at hperm
        have hres := add_right_cancel hperm
        constructor
        · rw [show siftup (b :: t) 0 =
            siftupAux (b :: t).length (b :: t) (b :: t).length 0 0
              (hGet (b :: t) 0) from rfl, hget0, hres]
          have h1 : (↑(x :: (t ++ [b])) : Multiset HuffmanNode) =
              x ::ₘ (↑(t ++ [b]) : Multiset HuffmanNode) := by simp
          rw [h1]
          congr 1
          rw [show (↑(t ++ [b]) : Multiset HuffmanNode) = ↑t + ↑[b] by
            rw [Multiset.coe_add]]
          rw [show (↑(b :: t) : Multiset HuffmanNode) = {b} + ↑t by
            simp [Multiset.singleton_add]]
          rw [show (↑[b] : Multiset HuffmanNode) = {b} from rfl]
          exact add_comm _ _
        · rw [show siftup (b :: t) 0 =
            siftupAux (b :: t).length (b :: t) (b :: t).length 0 0
              (hGet (b :: t) 0) from rfl, siftupAux_length]
          simp

/-- The list of `(char, freq)` pairs at the leaves of a node, in depth-first
order. -/
def leafPairs : HuffmanNode → List (Char × Nat)
  | .leaf c f => [(c, f)]
  | .node _ l r => leafPairs l ++ leafPairs r

/-- All leaf pairs held anywhere in a heap, as a multiset. -/
def heapPairs (h : List HuffmanNode) : Multiset (Char × Nat) :=
  (↑h : Multiset HuffmanNode).bind (fun n => (↑(leafPairs n) : Multiset (Char × Nat)))

theorem heapPairs_congr {h1 h2 : List HuffmanNode}
    (e : (↑h1 : Multiset HuffmanNode) = ↑h2) : heapPairs h1 = heapPairs h2 := by
  simp [heapPairs, e]

theorem buildLoop_pairs (fuel : Nat) (heap : List HuffmanNode) :
    heapPairs (buildLoop fuel heap) = heapPairs heap := by
  induction fuel generalizing heap with
  | zero => simp [buildLoop]
  | succ fuel ih =>
      simp only [buildLoop]
      split
      · cases hp1 : heappop heap with
        | none => simp
        | some p1 =>
            obtain ⟨n1, h1⟩ := p1
            cases hp2 : heappop h1 with
            | none => simp [hp2]
            | some p2 =>
                obtain ⟨n2, h2⟩ := p2
                simp only [hp2]
                rw [ih]
                have e1 := (heappop_spec hp1).1
                have e2 := (heappop_spec hp2).1
                have epush := heappush_perm h2 (mergeStep n1 n2)
                simp only [heapPairs, epush, e1, e2]
                simp [mergeStep, leafPairs, Multiset.bind_cons, ← Multiset.coe_add]
                abel
      · rfl

theorem buildLoop_length {fuel : Nat} {heap : List HuffmanNode}
    (hne : heap ≠ []) (hfuel : heap.length ≤ fuel + 1) :
    (buildLoop fuel heap).length = 1 := by
  induction fuel generalizing heap with
  | zero =>
      have h1 : heap.length = 1 := by
        have := List.length_pos.mpr hne
        omega
      simp [buildLoop, h1]
  | succ fuel ih =>
      simp only [buildLoop]
      split
      · rename_i hgt
        cases hp1 : heappop heap with
        | none => rw [heappop_eq_none_iff] at hp1; exact absurd hp1 hne
        | some p1 =>
            obtain ⟨n1, h1⟩ := p1
            have hl1 := (heappop_spec hp1).2
            cases hp2 : heappop h1 with
            | none =>
                rw [heappop_eq_none_iff] at hp2
                subst hp2
                simp at hl1
                omega
            | some p2 =>
                obtain ⟨n2, h2⟩ := p2
                simp only [hp2]
                have hl2 := (heappop_spec hp2).2
                apply ih
                · intro hcon
                  have hx := heappush_length h2 (mergeStep n1 n2)
                  rw [hcon] at hx
                  simp at hx
                · rw [heappush_length]
                  omega
      · rename_i hng
        have := List.length_pos.mpr hne
        omega

/-! ## Dictionary lemmas -/

theorem dictGet?_dictSet_self {α β : Type} [DecidableEq α]
    (d : List (α × β)) (k : α) (v : β) :
    dictGet? (dictSet d k v) k = some v := by
  induction d with
  | nil => simp [dictSet, dictGet?]
  | cons p rest ih =>
      obtain ⟨k1, v1⟩ := p
      by_cases h : k = k1
      · simp [dictSet, dictGet?, h]
      · simp [dictSet, dictGet?, h, ih]

theorem dictGet?_dictSet_ne {α β : Type} [DecidableEq α]
    (d : List (α × β)) {k k0 : α} (v : β) (h : k0 ≠ k) :
    dictGet? (dictSet d k v) k0 = dictGet? d k0 := by
  induction d with
  | nil => simp [dictSet, dictGet?, h]
  | cons p rest ih =>
      obtain ⟨k1, v1⟩ := p
      by_cases h1 : k = k1
      · subst h1
        simp [dictSet, dictGet?, h]
      · by_cases h2 : k0 = k1 <;> simp [dictSet, dictGet?, h1, h2, ih]

theorem dictSet_of_not_mem_keys {α β : Type} [DecidableEq α]
    {d : List (α × β)} {k : α} (v : β) (h : k ∉ d.map Prod.fst) :
    dictSet d k v = d ++ [(k, v)] := by
  induction d with
  | nil => simp [dictSet]
  | cons p rest ih =>
      obtain ⟨k1, v1⟩ := p
      have h1 : k ≠ k1 := by intro he; exact h (by simp [he])
      have h2 : k ∉ rest.map Prod.fst := by intro hm; exact h (by simp [hm])
      simp [dictSet, h1, ih h2]

theorem dictSet_keys_of_mem {α β : Type} [DecidableEq α]
    {d : List (α × β)} {k : α} (v : β) (h : k ∈ d.map Prod.fst) :
    (dictSet d k v).map Prod.fst = d.map Prod.fst := by
  induction d with
  | nil => simp at h
  | cons p rest ih =>
      obtain ⟨k1, v1⟩ := p
      by_cases h1 : k = k1
      · simp [dictSet, h1]
      · have h2 : k ∈ rest.map Prod.fst := by
          simp only [List.map_cons, List.mem_cons] at h
          rcases h with he | hm
          · exact absurd he h1
          · exact hm
        simp [dictSet, h1, ih h2]

theorem dictGet?_isSome_iff {α β : Type} [DecidableEq α]
    (d : List (α × β)) (k : α) :
    (dictGet? d k).isSome = true ↔ k ∈ d.map Prod.fst := by
  induction d with
  | nil => simp [dictGet?]
  | cons p rest ih =>
      obtain ⟨k1, v1⟩ := p
      by_cases h : k = k1 <;> simp [dictGet?, h, ih]

theorem dictGet?_eq_none_of_not_mem {α β : Type} [DecidableEq α]
    {d : List (α × β)} {k : α} (h : k ∉ d.map Prod.fst) :
    dictGet? d k = none := by
  cases he : dictGet? d k with
  | none => rfl
  | some v =>
      exact absurd ((dictGet?_isSome_iff d k).mp (by simp [he])) h

theorem mem_of_dictGet?_eq_some {α β : Type} [DecidableEq α]
    {d : List (α × β)} {k : α} {v : β} (h : dictGet? d k = some v) :
    (k, v) ∈ d := by
  induction d with
  | nil => simp [dictGet?] at h
  | cons p rest ih =>
      obtain ⟨k1, v1⟩ := p
      by_cases h1 : k = k1
      · subst h1
        simp [dictGet?] at h
        simp [h]
      · simp [dictGet?, h1] at h
        simp [ih h]

theorem dictGet?_of_nodup_mem {α β : Type} [DecidableEq α]
    {d : List (α × β)} (hnd : (d.map Prod.fst).Nodup)
    {k : α} {v : β} (h : (k, v) ∈ d) :
    dictGet? d k = some v := by
  induction d with
  | nil => simp at h
  | cons p rest ih =>
      obtain ⟨k1, v1⟩ := p
      simp only [List.map_cons, List.nodup_cons] at hnd
      rcases List.mem_cons.mp h with he | hm
      · have hk : k = k1 := congrArg Prod.fst he
        have hv : v = v1 := congrArg Prod.snd he
        simp [dictGet?, hk, hv]
      · have hk : k ≠ k1 := by
          intro he2
          subst he2
          exact hnd.1 (List.mem_map_of_mem Prod.fst hm)
        simp [dictGet?, hk, ih hnd.2 hm]

theorem foldl_dictSet_fresh {α β : Type} [DecidableEq α]
    (entries : List (α × β)) (d : List (α × β))
    (hdisj : ∀ e ∈ entries, e.1 ∉ d.map Prod.fst)
    (hnd : (entries.map Prod.fst).Nodup) :
    entries.foldl (fun acc e => dictSet acc e.1 e.2) d = d ++ entries := by
  induction entries generalizing d with
  | nil => simp
  | cons e rest ih =>
      obtain ⟨k, v⟩ := e
      simp only [List.foldl_cons]
      rw [dictSet_of_not_mem_keys v (hdisj (k, v) (by simp))]
      simp only [List.map_cons, List.nodup_cons] at hnd
      rw [ih (d ++ [(k, v)]) ?_ hnd.2]
      · simp
      · intro e he
        simp only [List.map_append, List.mem_append, List.map_cons,
          List.map_nil, List.mem_singleton]
        push_neg
        refine ⟨hdisj e (by simp [he]), ?_⟩
        intro hek
        exact hnd.1 (hek ▸ List.mem_map_of_mem Prod.fst he)

/-! ## Frequency table facts -/

theorem bft_fold_lookup (text : List Char) (d : List (Char × Nat)) (c : Char) :
    dictGet? (text.foldl (fun d c => dictSet d c ((dictGet? d c).getD 0 + 1)) d) c =
      if c ∈ text ∨ (dictGet? d c).isSome then
        some ((dictGet? d c).getD 0 + text.count c) else none := by
  induction text generalizing d with
  | nil =>
      cases hd : dictGet? d c <;> simp [hd]
  | cons x xs ih =>
      simp only [List.foldl_cons]
      rw [ih]
      by_cases hcx : c = x
      · subst hcx
        rw [dictGet?_dictSet_self]
        cases hd : dictGet? d c <;>
          simp [hd, List.count_cons, Nat.add_comm, Nat.add_assoc, Nat.add_left_comm]
      · rw [dictGet?_dictSet_ne _ _ hcx]
        have hcnt : (x :: xs).count c = xs.count c := by
          simp [List.count_cons, hcx]
        rw [hcnt]
        simp [List.mem_cons, hcx]

theorem bft_lookup (text : List Char) (c : Char) :
    dictGet? (build_frequency_table text) c =
      if c ∈ text then some (text.count c) else none := by
  rw [build_frequency_table, bft_fold_lookup]
  simp [dictGet?]

theorem dictSet_incr_sum (d : List (Char × Nat)) (c : Char) :
    ((dictSet d c ((dictGet? d c).getD 0 + 1)).map Prod.snd).sum =
      ((d.map Prod.snd).sum) + 1 := by
  induction d with
  | nil => simp [dictSet, dictGet?]
  | cons p rest ih =>
      obtain ⟨k1, v1⟩ := p
      by_cases h : c = k1
      · simp [dictSet, dictGet?, h]
        omega
      · simp only [dictGet?, dictSet, if_neg h, List.map_cons, List.sum_cons]
        rw [ih]
        omega

theorem bft_sum (text : List Char) :
    ((build_frequency_table text).map Prod.snd).sum = text.length := by
  suffices h : ∀ d : List (Char × Nat),
      ((text.foldl (fun d c => dictSet d c ((dictGet? d c).getD 0 + 1)) d).map
        Prod.snd).sum = (d.map Prod.snd).sum + text.length by
    simpa using h []
  induction text with
  | nil => simp
  | cons x xs ih =>
      intro d
      simp only [List.foldl_cons]
      rw [ih]
      rw [dictSet_incr_sum]
      simp [Nat.add_assoc, Nat.add_comm, Nat.add_left_comm]

theorem bft_keys_nodup (text : List Char) :
    ((build_frequency_table text).map Prod.fst).Nodup := by
  suffices h : ∀ d : List (Char × Nat), (d.map Prod.fst).Nodup →
      ((text.foldl (fun d c => dictSet d c ((dictGet? d c).getD 0 + 1)) d).map
        Prod.fst).Nodup by
    exact h [] (by simp)
  induction text with
  | nil => intro d hd; simpa using hd
  | cons x xs ih =>
      intro d hd
      simp only [List.foldl_cons]
      apply ih
      by_cases hm : x ∈ d.map Prod.fst
      · rw [dictSet_keys_of_mem _ hm]; exact hd
      · rw [dictSet_of_not_mem_keys _ hm]
        simp only [List.map_append, List.map_cons, List.map_nil]
        rw [List.nodup_append]
        exact ⟨hd, by simp, by simpa using hm⟩

theorem bft_mem_keys (text : List Char) (c : Char) :
    c ∈ (build_frequency_table text).map Prod.fst ↔ c ∈ text := by
  rw [← dictGet?_isSome_iff, bft_lookup]
  by_cases h : c ∈ text <;> simp [h]

theorem bft_eq_nil_iff (text : List Char) :
    build_frequency_table text = [] ↔ text = [] := by
  constructor
  · intro h
    by_contra hne
    obtain ⟨c, hc⟩ := List.exists_mem_of_ne_nil text hne
    have := (bft_mem_keys text c).mpr hc
    rw [h] at this
    simp at this
  · intro h
    subst h
    rfl

/-! ## Code generation: entries, prefix-freeness -/

/-- The `(symbol, codeword)` pairs recorded by `generate_codes`, in traversal
order: the path to each character-bearing node, `false` for a left edge and
`true` for a right edge. -/
def codeEntries : HuffmanNode → List Bool → List (Char × List Bool)
  | .leaf c _, code => [(c, code)]
  | .node _ l r, code =>
      codeEntries l (code ++ [false]) ++ codeEntries r (code ++ [true])

/-- The characters at the leaves, in traversal order. -/
def leafChars (n : HuffmanNode) : List Char := (leafPairs n).map Prod.fst

theorem codeEntries_map_fst (n : HuffmanNode) (code : List Bool) :
    (codeEntries n code).map Prod.fst = leafChars n := by
  induction n generalizing code with
  | leaf c f => simp [codeEntries, leafChars, leafPairs]
  | node f l r ihl ihr =>
      simp only [codeEntries, List.map_append, ihl (code ++ [false]),
        ihr (code ++ [true])]
      simp [leafChars, leafPairs]

theorem genCodes_eq (n : HuffmanNode) (code : List Bool)
    (st : List (Char × List Bool) × List (List Bool × Char)) :
    genCodes n code st =
      ((codeEntries n code).foldl (fun d e => dictSet d e.1 e.2) st.1,
       (codeEntries n code).foldl (fun d e => dictSet d e.2 e.1) st.2) := by
  induction n generalizing code st with
  | leaf c f => simp [genCodes, codeEntries]
  | node f l r ihl ihr =>
      simp only [genCodes, codeEntries, List.foldl_append]
      rw [ihl, ihr]

/-- Bit-string prefix test: `isPrefB p q` holds when `p` is a prefix of `q`. -/
def isPrefB : List Bool → List Bool → Bool
  | [], _ => true
  | _ :: _, [] => false
  | a :: p, b :: q => a == b && isPrefB p q

theorem isPrefB_iff (p q : List Bool) :
    isPrefB p q = true ↔ ∃ r, p ++ r = q := by
  induction p generalizing q with
  | nil => simp [isPrefB]
  | cons a p ih =>
      cases q with
      | nil => simp [isPrefB]
      | cons b q =>
          simp only [isPrefB, Bool.and_eq_true, beq_iff_eq, ih]
          constructor
          · rintro ⟨rfl, r, rfl⟩
            exact ⟨r, rfl⟩
          · rintro ⟨r, hr⟩
            have h1 : a = b := by
              have := congrArg (fun l => List.head? l) hr
              simpa using this
            have h2 : p ++ r = q := by
              have := congrArg List.tail hr
              simpa using this
            exact ⟨h1, r, h2⟩

theorem isPrefB_append (p r : List Bool) : isPrefB p (p ++ r) = true :=
  (isPrefB_iff p (p ++ r)).mpr ⟨r, rfl⟩

theorem isPrefB_cross (code : List Bool) {b1 b2 : Bool} (h : b1 ≠ b2)
    (r1 r2 : List Bool) :
    isPrefB (code ++ b1 :: r1) (code ++ b2 :: r2) = false := by
  induction code with
  | nil =>
      simp [isPrefB]
      intro he
      exact absurd he h
  | cons a code ih => simp [isPrefB, ih]

theorem codeEntries_extend (n : HuffmanNode) (code : List Bool) :
    ∀ e ∈ codeEntries n code, ∃ r, e.2 = code ++ r := by
  induction n generalizing code with
  | leaf c f =>
      intro e he
      simp [codeEntries] at he
      subst he
      exact ⟨[], by simp⟩
  | node f l r ihl ihr =>
      intro e he
      simp only [codeEntries, List.mem_append] at he
      rcases he with he | he
      · obtain ⟨s, hs⟩ := ihl (code ++ [false]) e he
        exact ⟨false :: s, by simp [hs]⟩
      · obtain ⟨s, hs⟩ := ihr (code ++ [true]) e he
        exact ⟨true :: s, by simp [hs]⟩

theorem codeEntries_pairwise (n : HuffmanNode) (code : List Bool) :
    (codeEntries n code).Pairwise
      (fun e1 e2 => isPrefB e1.2 e2.2 = false ∧ isPrefB e2.2 e1.2 = false) := by
  induction n generalizing code with
  | leaf c f => simp [codeEntries]
  | node f l r ihl ihr =>
      simp only [codeEntries]
      rw [List.pairwise_append]
      refine ⟨ihl _, ihr _, ?_⟩
      intro e1 he1 e2 he2
      obtain ⟨r1, hr1⟩ := codeEntries_extend l (code ++ [false]) e1 he1
      obtain ⟨r2, hr2⟩ := codeEntries_extend r (code ++ [true]) e2 he2
      rw [hr1, hr2]
      simp only [List.append_assoc, List.cons_append, List.nil_append]
      exact ⟨isPrefB_cross code (by simp) r1 r2,
        isPrefB_cross code (by simp) r2 r1⟩

theorem codeEntries_length_ge (n : HuffmanNode) (code : List Bool) :
    ∀ e ∈ codeEntries n code, code.length ≤ e.2.length := by
  intro e he
  obtain ⟨r, hr⟩ := codeEntries_extend n code e he
  simp [hr]

theorem codeEntries_node_length (f : Nat) (l r : HuffmanNode) (code : List Bool) :
    ∀ e ∈ codeEntries (.node f l r) code, code.length + 1 ≤ e.2.length := by
  intro e he
  simp only [codeEntries, List.mem_append] at he
  rcases he with he | he
  · have := codeEntries_length_ge l (code ++ [false]) e he
    simpa using this
  · have := codeEntries_length_ge r (code ++ [true]) e he
    simpa using this

theorem codeEntries_ne_nil (n : HuffmanNode) (code : List Bool) :
    codeEntries n code ≠ [] := by
  induction n generalizing code with
  | leaf c f => simp [codeEntries]
  | node f l r ihl ihr => simp [codeEntries, ihl]

/-! ## The built tree: leaf pairs are exactly the frequency table -/

theorem foldl_heappush_perm (ft : List (Char × Nat)) (acc : List HuffmanNode) :
    (↑(ft.foldl (fun h cf => heappush h (.leaf cf.1 cf.2)) acc) :
      Multiset HuffmanNode) =
      ↑acc + ↑(ft.map fun cf => HuffmanNode.leaf cf.1 cf.2) := by
  induction ft generalizing acc with
  | nil => simp
  | cons cf rest ih =>
      simp only [List.foldl_cons, List.map_cons]
      rw [ih, heappush_perm]
      rw [show (↑(HuffmanNode.leaf cf.1 cf.2 ::
        rest.map fun cf => HuffmanNode.leaf cf.1 cf.2) : Multiset HuffmanNode) =
        HuffmanNode.leaf cf.1 cf.2 ::ₘ
          ↑(rest.map fun cf => HuffmanNode.leaf cf.1 cf.2) by simp]
      rw [← Multiset.singleton_add]
      ac_rfl

theorem foldl_heappush_length (ft : List (Char × Nat)) (acc : List HuffmanNode) :
    (ft.foldl (fun h cf => heappush h (.leaf cf.1 cf.2)) acc).length =
      acc.length + ft.length := by
  induction ft generalizing acc with
  | nil => simp
  | cons cf rest ih =>
      simp only [List.foldl_cons]
      rw [ih, heappush_length]
      simp [List.length_cons]
      omega

theorem bind_leafPairs_map (ft : List (Char × Nat)) :
    ((↑(ft.map fun cf => HuffmanNode.leaf cf.1 cf.2) : Multiset HuffmanNode).bind
      (fun n => (↑(leafPairs n) : Multiset (Char × Nat)))) = ↑ft := by
  induction ft with
  | nil => simp
  | cons cf rest ih =>
      simp only [List.map_cons]
      rw [show (↑(HuffmanNode.leaf cf.1 cf.2 ::
        rest.map fun cf => HuffmanNode.leaf cf.1 cf.2) : Multiset HuffmanNode) =
        HuffmanNode.leaf cf.1 cf.2 ::ₘ
          ↑(rest.map fun cf => HuffmanNode.leaf cf.1 cf.2) by simp]
      rw [Multiset.cons_bind, ih]
      simp [leafPairs]

theorem build_huffman_tree_root {ft : List (Char × Nat)} (hne : ft ≠ []) :
    ∃ root, build_huffman_tree ft = some root ∧
      buildLoop (ft.foldl (fun h cf => heappush h (.leaf cf.1 cf.2)) []).length
        (ft.foldl (fun h cf => heappush h (.leaf cf.1 cf.2)) []) = [root] := by
  set heap := ft.foldl (fun h cf => heappush h (.leaf cf.1 cf.2)) [] with hheap
  have hlen : heap.length = ft.length := by
    rw [hheap, foldl_heappush_length]; simp
  have hhne : heap ≠ [] := by
    intro hcon
    rw [hcon] at hlen
    simp at hlen
    exact hne (List.eq_nil_of_length_eq_zero hlen.symm)
  have h1f : (buildLoop heap.length heap).length = 1 :=
    buildLoop_length hhne (by omega)
  obtain ⟨root, hroot⟩ : ∃ r, buildLoop heap.length heap = [r] := by
    cases hb : buildLoop heap.length heap with
    | nil => rw [hb] at h1f; simp at h1f
    | cons r t =>
        rw [hb] at h1f
        simp at h1f
        exact ⟨r, by rw [h1f]⟩
  refine ⟨root, ?_, hroot⟩
  simp only [build_huffman_tree, if_neg hne]
  rw [← hheap, hroot]
  rfl

theorem build_huffman_tree_pairs {ft : List (Char × Nat)} {root : HuffmanNode}
    (h : build_huffman_tree ft = some root) :
    (↑(leafPairs root) : Multiset (Char × Nat)) = ↑ft := by
  have hne : ft ≠ [] := by
    intro hcon
    rw [hcon] at h
    simp [build_huffman_tree] at h
  obtain ⟨root2, hb2, hloop⟩ := build_huffman_tree_root hne
  have hroot2 : root2 = root := by
    rw [h] at hb2
    exact (Option.some.inj hb2).symm
  rw [hroot2] at hloop
  have hpairs := buildLoop_pairs
    (ft.foldl (fun h cf => heappush h (.leaf cf.1 cf.2)) []).length
    (ft.foldl (fun h cf => heappush h (.leaf cf.1 cf.2)) [])
  rw [hloop] at hpairs
  have hseed : heapPairs (ft.foldl (fun h cf => heappush h (.leaf cf.1 cf.2)) []) =
      ↑ft := by
    rw [heapPairs_congr (by simpa using foldl_heappush_perm ft [])]
    exact bind_leafPairs_map ft
  rw [hseed] at hpairs
  have hsingle : heapPairs [root] = ↑(leafPairs root) := by
    simp [heapPairs]
  rw [hsingle] at hpairs
  exact hpairs

theorem leafChars_of_build {ft : List (Char × Nat)} {root : HuffmanNode}
    (h : build_huffman_tree ft = some root) :
    (↑(leafChars root) : Multiset Char) = ↑(ft.map Prod.fst) := by
  have := congrArg (Multiset.map Prod.fst) (build_huffman_tree_pairs h)
  simpa [leafChars] using this

theorem leafChars_nodup_of_build {ft : List (Char × Nat)} {root : HuffmanNode}
    (h : build_huffman_tree ft = some root)
    (hnd : (ft.map Prod.fst).Nodup) :
    (leafChars root).Nodup := by
  have hmul := leafChars_of_build h
  have : Multiset.Nodup (↑(leafChars root) : Multiset Char) := by
    rw [hmul]
    exact hnd
  exact this

/-! ## The generated dictionaries -/

theorem isPrefB_refl (p : List Bool) : isPrefB p p = true :=
  (isPrefB_iff p p).mpr ⟨[], by simp⟩

theorem codeEntries_snd_nodup (n : HuffmanNode) (code : List Bool) :
    ((codeEntries n code).map Prod.snd).Nodup := by
  rw [List.Nodup, List.pairwise_map]
  refine (codeEntries_pairwise n code).imp ?_
  intro e1 e2 h he
  rw [he, isPrefB_refl] at h
  exact Bool.true_eq_false.mp h.1

theorem generate_codes_eq_entries {root : HuffmanNode}
    (hnd : (leafChars root).Nodup) :
    generate_codes (some root) [] [] [] =
      (codeEntries root [],
       (codeEntries root []).map (fun e => (e.2, e.1))) := by
  rw [generate_codes, genCodes_eq, Prod.mk.injEq]
  refine ⟨?_, ?_⟩
  · rw [foldl_dictSet_fresh _ [] (by simp) (by rw [codeEntries_map_fst]; exact hnd)]
    simp
  · rw [show ((codeEntries root []).foldl (fun d e => dictSet d e.2 e.1)
      ([] : List (List Bool × Char))) =
      (((codeEntries root []).map (fun e => (e.2, e.1))).foldl
        (fun d e => dictSet d e.1 e.2) ([] : List (List Bool × Char))) by
      rw [List.foldl_map]]
    rw [foldl_dictSet_fresh _ [] (by simp) ?_]
    · simp
    · rw [show ((codeEntries root []).map fun e => (e.2, e.1)).map Prod.fst =
        (codeEntries root []).map Prod.snd by
        rw [List.map_map]; rfl]
      exact codeEntries_snd_nodup root []

/-- The symmetric non-prefix relation on code entries. -/
theorem codeEntries_not_pref {root : HuffmanNode} {e1 e2 : Char × List Bool}
    (h1 : e1 ∈ codeEntries root []) (h2 : e2 ∈ codeEntries root [])
    (hne : e1 ≠ e2) : isPrefB e1.2 e2.2 = false := by
  have hsym : Symmetric (fun e1 e2 : Char × List Bool =>
      isPrefB e1.2 e2.2 = false ∧ isPrefB e2.2 e1.2 = false) := by
    intro a b hab
    exact ⟨hab.2, hab.1⟩
  exact ((codeEntries_pairwise root []).forall hsym h1 h2 hne).1

/-- claim C4 statement over the coder state left by `encode`. -/
theorem codes_prefix_free (text : List Char) (a b : Char) (pa pb : List Bool)
    (hab : a ≠ b)
    (ha : dictGet? (encode freshCoder text).2.codes a = some pa)
    (hb : dictGet? (encode freshCoder text).2.codes b = some pb) :
    isPrefB pa pb = false := by
  by_cases hne : text = []
  · subst hne
    simp [encode, freshCoder, dictGet?] at ha
  · have hft : build_frequency_table text ≠ [] := by
      rw [Ne, bft_eq_nil_iff]; exact hne
    obtain ⟨root, hroot, _⟩ := build_huffman_tree_root hft
    have hnd := leafChars_nodup_of_build hroot (bft_keys_nodup text)
    have hcodes : (encode freshCoder text).2.codes = codeEntries root [] := by
      simp only [encode, if_neg hne, hroot]
      rw [show (generate_codes (some root) [] [] []) =
        (codeEntries root [], (codeEntries root []).map (fun e => (e.2, e.1)))
        from generate_codes_eq_entries hnd]
      cases henc : encodeText (codeEntries root []) text <;> simp
    rw [hcodes] at ha hb
    have hma := mem_of_dictGet?_eq_some ha
    have hmb := mem_of_dictGet?_eq_some hb
    have hpair : (a, pa) ≠ (b, pb) := by
      intro hcon
      exact hab (congrArg Prod.fst hcon)
    exact codeEntries_not_pref hma hmb hpair

/-! ## The encoded stream -/

theorem encodeText_foldl (codes : List (Char × List Bool)) (text : List Char)
    (acc : List Bool) (h : ∀ c ∈ text, (dictGet? codes c).isSome = true) :
    text.foldl
      (fun acc c => do
        let bits ← acc
        let cw ← dictGet? codes c
        pure (bits ++ cw))
      (some acc) =
      some (acc ++ (text.map (fun c => (dictGet? codes c).getD [])).flatten) := by
  induction text generalizing acc with
  | nil => simp
  | cons x xs ih =>
      have hx : (dictGet? codes x).isSome = true := h x (by simp)
      obtain ⟨cw, hcw⟩ := Option.isSome_iff_exists.mp hx
      rw [List.foldl_cons]
      have hmid : List.foldl
          (fun acc c => do
            let bits ← acc
            let cw ← dictGet? codes c
            pure (bits ++ cw))
          ((fun (acc : Option (List Bool)) (c : Char) => do
            let bits ← acc
            let cw ← dictGet? codes c
            pure (bits ++ cw)) (some acc) x) xs =
          List.foldl
          (fun acc c => do
            let bits ← acc
            let cw ← dictGet? codes c
            pure (bits ++ cw)) (some (acc ++ cw)) xs := by
        congr 1
        simp [hcw]
      rw [hmid, ih (acc ++ cw) (fun c hc => h c (by simp [hc]))]
      simp [hcw]

theorem encodeText_eq (codes : List (Char × List Bool)) (text : List Char)
    (h : ∀ c ∈ text, (dictGet? codes c).isSome = true) :
    encodeText codes text =
      some ((text.map (fun c => (dictGet? codes c).getD [])).flatten) := by
  rw [encodeText]
  have := encodeText_foldl codes text [] h
  simpa using this

theorem dictSet_incr_gsum (f : Char → Nat) (d : List (Char × Nat)) (c : Char) :
    ((dictSet d c ((dictGet? d c).getD 0 + 1)).map (fun p => p.2 * f p.1)).sum =
      ((d.map (fun p => p.2 * f p.1)).sum) + f c := by
  induction d with
  | nil => simp [dictSet, dictGet?]
  | cons p rest ih =>
      obtain ⟨k1, v1⟩ := p
      by_cases h : c = k1
      · subst h
        simp [dictSet, dictGet?]
        ring
      · simp only [dictGet?, dictSet, if_neg h, List.map_cons, List.sum_cons]
        rw [ih]
        omega

theorem bft_weighted_sum (text : List Char) (f : Char → Nat) :
    ((build_frequency_table text).map (fun p => p.2 * f p.1)).sum =
      (text.map f).sum := by
  suffices h : ∀ d : List (Char × Nat),
      ((text.foldl (fun d c => dictSet d c ((dictGet? d c).getD 0 + 1)) d).map
        (fun p => p.2 * f p.1)).sum =
      ((d.map (fun p => p.2 * f p.1)).sum) + (text.map f).sum by
    simpa using h []
  induction text with
  | nil => simp
  | cons x xs ih =>
      intro d
      simp only [List.foldl_cons]
      rw [ih, dictSet_incr_gsum]
      simp [List.map_cons, List.sum_cons]
      omega

theorem mem_entries_isSome {text : List Char} {root : HuffmanNode}
    (hroot : build_huffman_tree (build_frequency_table text) = some root)
    {c : Char} (hc : c ∈ text) :
    (dictGet? (codeEntries root []) c).isSome = true := by
  rw [dictGet?_isSome_iff, codeEntries_map_fst]
  have hmul := leafChars_of_build hroot
  have : c ∈ (↑(leafChars root) : Multiset Char) := by
    rw [hmul]
    simp only [Multiset.mem_coe]
    rw [bft_mem_keys]
    exact hc
  simpa using this

/-- claim C8: the stream returned by `encode` is the in-order concatenation of
the codewords, its length is the weighted sum of codeword lengths, and the
returned frequency table holds the positive occurrence counts, summing to the
input length. -/
theorem encode_stream_spec (text : List Char) :
    ∃ bits ft st2,
      encode freshCoder text = (some (bits, ft), st2) ∧
      bits = (text.map (fun c => (dictGet? st2.codes c).getD [])).flatten ∧
      (∀ c n, dictGet? ft c = some n ↔ (c ∈ text ∧ n = text.count c)) ∧
      (∀ c n, dictGet? ft c = some n → 0 < n) ∧
      (ft.map Prod.snd).sum = text.length ∧
      bits.length =
        (ft.map (fun p => p.2 * ((dictGet? st2.codes p.1).getD []).length)).sum := by
  by_cases hne : text = []
  · subst hne
    refine ⟨[], [], freshCoder, rfl, by simp, ?_, ?_, rfl, rfl⟩
    · intro c n
      simp [dictGet?]
    · intro c n h
      simp [dictGet?] at h
  · have hft : build_frequency_table text ≠ [] := by
      rw [Ne, bft_eq_nil_iff]; exact hne
    obtain ⟨root, hroot, _⟩ := build_huffman_tree_root hft
    have hnd := leafChars_nodup_of_build hroot (bft_keys_nodup text)
    have hlookup : ∀ c ∈ text, (dictGet? (codeEntries root []) c).isSome = true :=
      fun c hc => mem_entries_isSome hroot hc
    have henc := encodeText_eq (codeEntries root []) text hlookup
    refine ⟨(text.map (fun c => (dictGet? (codeEntries root []) c).getD [])).flatten,
      build_frequency_table text,
      ⟨codeEntries root [], (codeEntries root []).map (fun e => (e.2, e.1))⟩,
      ?_, by simp, ?_, ?_, bft_sum text, ?_⟩
    · simp only [encode, if_neg hne, hroot, generate_codes_eq_entries hnd, henc]
    · intro c n
      rw [bft_lookup]
      by_cases hc : c ∈ text
      · simp [hc]
        exact eq_comm
      · simp [hc]
    · intro c n h
      rw [bft_lookup] at h
      by_cases hc : c ∈ text
      · rw [if_pos hc] at h
        have : n = text.count c := (Option.some.inj h).symm
        subst this
        exact List.count_pos_iff.mpr hc
      · rw [if_neg hc] at h
        simp at h
    · rw [List.length_flatten, List.map_map]
      rw [bft_weighted_sum text
        (fun c => ((dictGet? (codeEntries root []) c).getD []).length)]
      rfl

/-! ## Decoding -/

theorem decodeLoop_sound (rcodes : List (List Bool × Char))
    (codes : List (Char × List Bool))
    (hcons : ∀ p c, dictGet? rcodes p = some c → dictGet? codes c = some p) :
    ∀ (bits cur : List Bool) (acc : List Char),
      ∃ emitted rest,
        decodeLoop rcodes bits cur acc = acc ++ emitted ∧
        (∀ c ∈ emitted, (dictGet? codes c).isSome = true) ∧
        (emitted.map fun c => (dictGet? codes c).getD []).flatten ++ rest =
          cur ++ bits := by
  intro bits
  induction bits with
  | nil =>
      intro cur acc
      exact ⟨[], cur, by simp [decodeLoop], by simp, by simp⟩
  | cons b bs ih =>
      intro cur acc
      simp only [decodeLoop]
      cases hlook : dictGet? rcodes (cur ++ [b]) with
      | some ch =>
          obtain ⟨emitted, rest, h1, h2, h3⟩ := ih [] (acc ++ [ch])
          refine ⟨ch :: emitted, rest, ?_, ?_, ?_⟩
          · show decodeLoop rcodes bs [] (acc ++ [ch]) = acc ++ ch :: emitted
            rw [h1]; simp
          · intro c hc
            rcases List.mem_cons.mp hc with rfl | hc
            · rw [Option.isSome_iff_exists]
              exact ⟨cur ++ [b], hcons _ _ hlook⟩
            · exact h2 c hc
          · show ((ch :: emitted).map fun c => (dictGet? codes c).getD []).flatten
              ++ rest = cur ++ b :: bs
            simp only [List.map_cons, List.flatten_cons]
            rw [hcons _ _ hlook]
            simp only [Option.getD_some]
            simp only [List.nil_append] at h3
            rw [List.append_assoc, h3]
            simp
      | none =>
          obtain ⟨emitted, rest, h1, h2, h3⟩ := ih (cur ++ [b]) acc
          refine ⟨emitted, rest, ?_, h2, ?_⟩
          · show decodeLoop rcodes bs (cur ++ [b]) acc = acc ++ emitted
            exact h1
          · rw [h3]; simp

theorem decodeLoop_one (rcodes : List (List Bool × Char)) (ch : Char)
    (p : List Bool)
    (hp : dictGet? rcodes p = some ch)
    (hproper : ∀ q r, q ++ r = p → r ≠ [] → dictGet? rcodes q = none) :
    ∀ (suf pre : List Bool), pre ++ suf = p → suf ≠ [] →
      ∀ (rest : List Bool) (acc : List Char),
        decodeLoop rcodes (suf ++ rest) pre acc =
          decodeLoop rcodes rest [] (acc ++ [ch]) := by
  intro suf
  induction suf with
  | nil => intro pre hpre hne; exact absurd rfl hne
  | cons b suf2 ih =>
      intro pre hpre hne rest acc
      cases suf2 with
      | nil =>
          simp only [List.singleton_append, decodeLoop]
          have hcur : pre ++ [b] = p := hpre
          rw [hcur, hp]
          rfl
      | cons b2 suf3 =>
          simp only [List.cons_append, decodeLoop]
          have hcur : dictGet? rcodes (pre ++ [b]) = none := by
            apply hproper (pre ++ [b]) (b2 :: suf3)
            · rw [← hpre]; simp
            · simp
          rw [hcur]
          show decodeLoop rcodes (b2 :: suf3 ++ rest) (pre ++ [b]) acc =
            decodeLoop rcodes rest [] (acc ++ [ch])
          exact ih (pre ++ [b]) (by rw [← hpre]; simp) (by simp) rest acc

theorem rcodes_lookup {root : HuffmanNode} {c : Char} {p : List Bool}
    (hm : (c, p) ∈ codeEntries root []) :
    dictGet? ((codeEntries root []).map fun e => (e.2, e.1)) p = some c := by
  apply dictGet?_of_nodup_mem
  · rw [show ((codeEntries root []).map fun e => (e.2, e.1)).map Prod.fst =
      (codeEntries root []).map Prod.snd by rw [List.map_map]; rfl]
    exact codeEntries_snd_nodup root []
  · exact (List.mem_map_of_mem (fun e => (e.2, e.1)) hm : _)

theorem rcodes_no_proper_prefix {root : HuffmanNode} {c : Char} {p : List Bool}
    (hm : (c, p) ∈ codeEntries root []) {q r : List Bool}
    (hqr : q ++ r = p) (hr : r ≠ []) :
    dictGet? ((codeEntries root []).map fun e => (e.2, e.1)) q = none := by
  apply dictGet?_eq_none_of_not_mem
  intro hq
  rw [show ((codeEntries root []).map fun e => (e.2, e.1)).map Prod.fst =
    (codeEntries root []).map Prod.snd by rw [List.map_map]; rfl] at hq
  obtain ⟨e2, he2, heq⟩ := List.mem_map.mp hq
  have hqp : q ≠ p := by
    intro hcon
    rw [hcon] at hqr
    have hrnil : r = [] := by
      have hl := congrArg List.length hqr
      simp at hl
      exact hl
    exact hr hrnil
  have hne : e2 ≠ (c, p) := by
    intro hcon
    rw [hcon] at heq
    exact hqp heq.symm
  have hnp := codeEntries_not_pref he2 hm hne
  rw [heq] at hnp
  rw [(isPrefB_iff q p).mpr ⟨r, hqr⟩] at hnp
  exact Bool.true_eq_false.mp hnp

theorem decode_eq_stored (st : Coder) (bits : List Bool)
    (ft : List (Char × Nat)) (hb : bits ≠ []) (hf : ft ≠ [])
    (hc : st.codes ≠ []) :
    decode st bits ft = (decodeLoop st.rcodes bits [] [], st) := by
  simp only [decode]
  rw [if_neg (by simp [hb, hf]), if_neg hc]

theorem decode_eq_rebuild (st : Coder) (bits : List Bool)
    (ft : List (Char × Nat)) (hb : bits ≠ []) (hf : ft ≠ [])
    (hc : st.codes = []) :
    decode st bits ft =
      (decodeLoop (generate_codes (build_huffman_tree ft) [] [] []).2 bits [] [],
       ⟨(generate_codes (build_huffman_tree ft) [] [] []).1,
        (generate_codes (build_huffman_tree ft) [] [] []).2⟩) := by
  simp only [decode]
  rw [if_neg (by simp [hb, hf]), if_pos hc]

theorem decode_empty (st : Coder) (bits : List Bool)
    (ft : List (Char × Nat)) (h : bits = [] ∨ ft = []) :
    decode st bits ft = ([], st) := by
  simp only [decode]
  rw [if_pos h]

theorem decodeLoop_flatten {root : HuffmanNode}
    (_hnd : (leafChars root).Nodup)
    (hlen : ∀ e ∈ codeEntries root [], e.2 ≠ []) :
    ∀ (txt acc : List Char),
      (∀ c ∈ txt, (dictGet? (codeEntries root []) c).isSome = true) →
      decodeLoop ((codeEntries root []).map fun e => (e.2, e.1))
        ((txt.map fun c => (dictGet? (codeEntries root []) c).getD []).flatten)
        [] acc = acc ++ txt := by
  intro txt
  induction txt with
  | nil => intro acc h; simp [decodeLoop]
  | cons c rest ih =>
      intro acc h
      obtain ⟨cw, hcw⟩ := Option.isSome_iff_exists.mp (h c (by simp))
      have hm : (c, cw) ∈ codeEntries root [] := mem_of_dictGet?_eq_some hcw
      have hcwne : cw ≠ [] := hlen (c, cw) hm
      simp only [List.map_cons, List.flatten_cons, hcw, Option.getD_some]
      rw [decodeLoop_one ((codeEntries root []).map fun e => (e.2, e.1)) c cw
        (rcodes_lookup hm)
        (fun q r hqr hr => rcodes_no_proper_prefix hm hqr hr)
        cw [] (by simp) hcwne _ acc]
      rw [ih (acc ++ [c]) (fun c2 hc2 => h c2 (by simp [hc2]))]
      simp

theorem root_is_node_of_two {root : HuffmanNode}
    (h2 : 2 ≤ (leafChars root).length) :
    ∃ f l r, root = HuffmanNode.node f l r := by
  cases root with
  | leaf c f => simp [leafChars, leafPairs] at h2
  | node f l r => exact ⟨f, l, r, rfl⟩

theorem two_mem_length {α : Type} {l : List α} {a b : α}
    (ha : a ∈ l) (hb : b ∈ l) (hab : a ≠ b) : 2 ≤ l.length := by
  cases l with
  | nil => simp at ha
  | cons x t =>
      cases t with
      | nil =>
          simp at ha hb
          rw [ha, hb] at hab
          exact absurd rfl hab
      | cons y t2 => simp

/-- claim C1 (amended): round-trip holds for every text with at least two
distinct symbols, decoding with the coder state and frequency table returned
by `encode`. -/
theorem encode_decode_roundtrip (text : List Char)
    (h2 : ∃ a ∈ text, ∃ b ∈ text, a ≠ b) :
    ∃ bits ft st2, encode freshCoder text = (some (bits, ft), st2) ∧
      decode st2 bits ft = (text, st2) := by
  obtain ⟨a, ha, b, hb, hab⟩ := h2
  have hne : text ≠ [] := by
    intro hcon
    rw [hcon] at ha
    simp at ha
  have hft : build_frequency_table text ≠ [] := by
    rw [Ne, bft_eq_nil_iff]; exact hne
  obtain ⟨root, hroot, _⟩ := build_huffman_tree_root hft
  have hnd := leafChars_nodup_of_build hroot (bft_keys_nodup text)
  have hlookup : ∀ c ∈ text, (dictGet? (codeEntries root []) c).isSome = true :=
    fun c hc => mem_entries_isSome hroot hc
  have henc := encodeText_eq (codeEntries root []) text hlookup
  -- the root is an internal node: the alphabet has two distinct symbols
  have hchars : 2 ≤ (leafChars root).length := by
    have hmul := leafChars_of_build hroot
    have hma : a ∈ leafChars root := by
      have : a ∈ (↑(leafChars root) : Multiset Char) := by
        rw [hmul]
        simp only [Multiset.mem_coe]
        rw [bft_mem_keys]
        exact ha
      simpa using this
    have hmb : b ∈ leafChars root := by
      have : b ∈ (↑(leafChars root) : Multiset Char) := by
        rw [hmul]
        simp only [Multiset.mem_coe]
        rw [bft_mem_keys]
        exact hb
      simpa using this
    exact two_mem_length hma hmb hab
  obtain ⟨f, l, r, hnode⟩ := root_is_node_of_two hchars
  have hlen : ∀ e ∈ codeEntries root [], e.2 ≠ [] := by
    intro e he
    rw [hnode] at he
    have := codeEntries_node_length f l r [] e he
    intro hcon
    rw [hcon] at this
    simp at this
  set bits := (text.map fun c => (dictGet? (codeEntries root []) c).getD []).flatten
    with hbits
  have hbitsne : bits ≠ [] := by
    rw [hbits]
    obtain ⟨c0, rest0, htext⟩ : ∃ c0 rest0, text = c0 :: rest0 := by
      cases text with
      | nil => exact absurd rfl hne
      | cons c0 rest0 => exact ⟨c0, rest0, rfl⟩
    rw [htext]
    simp only [List.map_cons, List.flatten_cons]
    obtain ⟨cw, hcw⟩ := Option.isSome_iff_exists.mp
      (hlookup c0 (by rw [htext]; simp))
    rw [hcw]
    simp only [Option.getD_some]
    intro hcon
    have hnil := List.append_eq_nil.mp hcon
    exact hlen (c0, cw) (mem_of_dictGet?_eq_some hcw) hnil.1
  refine ⟨bits, build_frequency_table text,
    ⟨codeEntries root [], (codeEntries root []).map fun e => (e.2, e.1)⟩,
    ?_, ?_⟩
  · simp only [encode, if_neg hne, hroot, generate_codes_eq_entries hnd, henc]
  · have hcne : codeEntries root [] ≠ [] := codeEntries_ne_nil root []
    rw [decode_eq_stored _ _ _ hbitsne hft hcne]
    rw [hbits]
    rw [decodeLoop_flatten hnd hlen text [] hlookup]
    simp

theorem rcodes_consistent {root : HuffmanNode}
    (hndc : (leafChars root).Nodup) :
    ∀ (p : List Bool) (c : Char),
      dictGet? ((codeEntries root []).map fun e => (e.2, e.1)) p = some c →
      dictGet? (codeEntries root []) c = some p := by
  intro p c hpc
  have hm := mem_of_dictGet?_eq_some hpc
  obtain ⟨e, he, heq⟩ := List.mem_map.mp hm
  have he1 : e.2 = p := congrArg Prod.fst heq
  have he2 : e.1 = c := congrArg Prod.snd heq
  have hecp : e = (c, p) := by
    obtain ⟨ec, ep⟩ := e
    simp at he1 he2
    rw [he1, he2]
  rw [hecp] at he
  apply dictGet?_of_nodup_mem ?_ he
  rw [codeEntries_map_fst]
  exact hndc

/-- claim C9: `decode` is total and prefix-sound — on any bit string and any
(duplicate-free) frequency table, starting from a fresh coder, it returns a
text whose re-encoding under the table it used is a prefix of the input bits;
trailing bits that complete no codeword are silently discarded. -/
theorem decode_total_prefix (bits : List Bool) (ft : List (Char × Nat))
    (hnd : (ft.map Prod.fst).Nodup) :
    ∃ out st2 rest, decode freshCoder bits ft = (out, st2) ∧
      encodeText st2.codes out =
        some ((out.map fun c => (dictGet? st2.codes c).getD []).flatten) ∧
      ((out.map fun c => (dictGet? st2.codes c).getD []).flatten) ++ rest =
        bits := by
  by_cases hempty : bits = [] ∨ ft = []
  · refine ⟨[], freshCoder, bits, decode_empty _ _ _ hempty, by rfl, by simp⟩
  · push_neg at hempty
    obtain ⟨hb, hf⟩ := hempty
    obtain ⟨root, hroot, _⟩ := build_huffman_tree_root hf
    have hndc := leafChars_nodup_of_build hroot hnd
    have hcons := rcodes_consistent hndc
    obtain ⟨emitted, rest, h1, h2, h3⟩ :=
      decodeLoop_sound ((codeEntries root []).map fun e => (e.2, e.1))
        (codeEntries root []) hcons bits [] []
    have hst : decode freshCoder bits ft =
        (decodeLoop ((codeEntries root []).map fun e => (e.2, e.1)) bits [] [],
         ⟨codeEntries root [], (codeEntries root []).map fun e => (e.2, e.1)⟩) := by
      rw [decode_eq_rebuild freshCoder bits ft hb hf rfl]
      rw [hroot, generate_codes_eq_entries hndc]
    refine ⟨emitted,
      ⟨codeEntries root [], (codeEntries root []).map fun e => (e.2, e.1)⟩,
      rest, ?_, ?_, ?_⟩
    · rw [hst, h1]
      simp
    · exact encodeText_eq _ _ h2
    · simpa using h3

/-- claim C6: the result of `encode` does not depend on the incoming coder
state at all, and (for non-empty input) neither does the final state: two
runs from any two states — in particular two fresh runs — give identical
encoded streams, frequency tables and code dictionaries. -/
theorem encode_state_independent (st1 st2 : Coder) (text : List Char) :
    (encode st1 text).1 = (encode st2 text).1 ∧
      (text = [] ∨ encode st1 text = encode st2 text) := by
  by_cases h : text = []
  · subst h
    exact ⟨rfl, Or.inl rfl⟩
  · constructor
    · simp only [encode, if_neg h]
    · right
      simp only [encode, if_neg h]

/-- claim C10: `decode` rebuilds the dictionaries from `freq_table` exactly
when the stored code table is empty; with a non-empty stored table the stored
reverse dictionary is used and the (non-empty) `freq_table` argument does not
influence the result. -/
theorem decode_rebuild_policy (st : Coder) (bits : List Bool)
    (ft1 ft2 : List (Char × Nat)) (hf1 : ft1 ≠ []) (hf2 : ft2 ≠ []) :
    (st.codes ≠ [] → decode st bits ft1 = decode st bits ft2 ∧
      decode st bits ft1 =
        (if bits = [] then ([], st) else (decodeLoop st.rcodes bits [] [], st))) ∧
    (st.codes = [] → decode st bits ft1 =
      (if bits = [] then ([], st) else
        (decodeLoop (generate_codes (build_huffman_tree ft1) [] [] []).2 bits [] [],
         ⟨(generate_codes (build_huffman_tree ft1) [] [] []).1,
          (generate_codes (build_huffman_tree ft1) [] [] []).2⟩))) := by
  constructor
  · intro hc
    by_cases hb : bits = []
    · subst hb
      rw [decode_empty _ _ _ (Or.inl rfl), decode_empty _ _ _ (Or.inl rfl)]
      simp
    · rw [decode_eq_stored st bits ft1 hb hf1 hc,
          decode_eq_stored st bits ft2 hb hf2 hc]
      simp [hb]
  · intro hc
    by_cases hb : bits = []
    · subst hb
      rw [decode_empty _ _ _ (Or.inl rfl)]
      simp
    · rw [decode_eq_rebuild st bits ft1 hb hf1 hc]
      simp [hb]

/-- claim C3 (the code): on the single-symbol input `"aaaa"` the generated
code table maps `'a'` to the empty codeword (not to `"0"`), the encoded
stream is empty, and decoding it returns the empty text, not `"aaaa"`. -/
theorem single_symbol_empty_codeword :
    (encode freshCoder "aaaa".toList).2.codes = [('a', [])] ∧
    (encode freshCoder "aaaa".toList).1 = some ([], [('a', 4)]) ∧
    (decode (encode freshCoder "aaaa".toList).2 [] [('a', 4)]).1 = [] ∧
    ([] : List Char) ≠ "aaaa".toList := by
  exact ⟨by decide, by decide, by decide, by decide⟩

/-- claim C1 (counterexample): for the single-symbol input `"a"` the
round-trip fails — decoding the encoded stream with the frequency table
returned by `encode` yields the empty text. -/
theorem roundtrip_fails_on_single_symbol :
    (decode (encode freshCoder ['a']).2
      ((encode freshCoder ['a']).1.getD ([], [])).1
      ((encode freshCoder ['a']).1.getD ([], [])).2).1 ≠ ['a'] := by
  decide

/-- claim C1 (witness): the round-trip theorem applied to `"ab"`. -/
theorem encode_decode_roundtrip_witness :
    (∃ a ∈ "ab".toList, ∃ b ∈ "ab".toList, a ≠ b) ∧
    (∃ bits ft st2, encode freshCoder "ab".toList = (some (bits, ft), st2) ∧
      decode st2 bits ft = ("ab".toList, st2)) :=
  ⟨by decide, encode_decode_roundtrip "ab".toList (by decide)⟩

/-- claim C4 (witness): the prefix-freeness theorem applied to `"ab"`. -/
theorem codes_prefix_free_witness :
    ('a' ≠ 'b') ∧
    dictGet? (encode freshCoder "ab".toList).2.codes 'a' = some [false] ∧
    dictGet? (encode freshCoder "ab".toList).2.codes 'b' = some [true] ∧
    isPrefB [false] [true] = false :=
  ⟨by decide, by decide, by decide,
    codes_prefix_free "ab".toList 'a' 'b' [false] [true] (by decide)
      (by decide) (by decide)⟩

/-- claim C9 (witness): the decoder soundness theorem applied to the bit
string `1` and the table `{a: 1}`. -/
theorem decode_total_prefix_witness :
    (([('a', 1)] : List (Char × Nat)).map Prod.fst).Nodup ∧
    (∃ out st2 rest, decode freshCoder [true] [('a', 1)] = (out, st2) ∧
      encodeText st2.codes out =
        some ((out.map fun c => (dictGet? st2.codes c).getD []).flatten) ∧
      ((out.map fun c => (dictGet? st2.codes c).getD []).flatten) ++ rest =
        [true]) :=
  ⟨by decide, decode_total_prefix [true] [('a', 1)] (by decide)⟩

/-- claim C10 (witness): the rebuild-policy theorem applied to a coder with a
stored table and two different frequency tables. -/
theorem decode_rebuild_policy_witness :
    (([('a', 1)] : List (Char × Nat)) ≠ []) ∧
    (([('b', 2)] : List (Char × Nat)) ≠ []) ∧
    ((((⟨[('a', [false])], [([false], 'a')]⟩ : Coder)).codes ≠ [] →
      decode ⟨[('a', [false])], [([false], 'a')]⟩ [false] [('a', 1)] =
        decode ⟨[('a', [false])], [([false], 'a')]⟩ [false] [('b', 2)] ∧
      decode ⟨[('a', [false])], [([false], 'a')]⟩ [false] [('a', 1)] =
        (if ([false] : List Bool) = [] then
          ([], (⟨[('a', [false])], [([false], 'a')]⟩ : Coder))
         else (decodeLoop [([false], 'a')] [false] [] [],
           ⟨[('a', [false])], [([false], 'a')]⟩))) ∧
    ((((⟨[('a', [false])], [([false], 'a')]⟩ : Coder)).codes = []) →
      decode ⟨[('a', [false])], [([false], 'a')]⟩ [false] [('a', 1)] =
        (if ([false] : List Bool) = [] then
          ([], (⟨[('a', [false])], [([false], 'a')]⟩ : Coder))
         else
          (decodeLoop (generate_codes (build_huffman_tree [('a', 1)]) [] [] []).2
            [false] [] [],
           ⟨(generate_codes (build_huffman_tree [('a', 1)]) [] [] []).1,
            (generate_codes (build_huffman_tree [('a', 1)]) [] [] []).2⟩)))) :=
  ⟨by decide, by decide,
    decode_rebuild_policy ⟨[('a', [false])], [([false], 'a')]⟩ [false]
      [('a', 1)] [('b', 2)] (by decide) (by decide)⟩

/-- claim C2 (counterexample): truncating the valid encoded stream of
`"abracadabra"` by one bit makes `decode` return the complete-looking text
`"abracadabr"` — no failure of any kind occurs. -/
theorem truncated_stream_decodes_silently :
    (decode (encode freshCoder "abracadabra".toList).2
      (((encode freshCoder "abracadabra".toList).1.getD ([], [])).1.dropLast)
      (build_frequency_table "abracadabra".toList)).1 = "abracadabr".toList := by
  decide

/-- claim C2 (amended): on the `"abracadabra"` example, any truncation of the
valid encoded stream decodes without error to the symbols of the complete
codewords before the cut (re-encoding the output gives back the consumed
prefix); the incomplete trailing codeword is silently dropped, and removing
one bit yields `"abracadabr"`. -/
theorem truncated_stream_behavior :
    (∀ m : Nat, ∃ out st2 rest,
      decode (encode freshCoder "abracadabra".toList).2
        ((((encode freshCoder "abracadabra".toList).1.getD ([], [])).1).take m)
        (build_frequency_table "abracadabra".toList) = (out, st2) ∧
      encodeText st2.codes out =
        some ((out.map fun c => (dictGet? st2.codes c).getD []).flatten) ∧
      ((out.map fun c => (dictGet? st2.codes c).getD []).flatten) ++ rest =
        (((encode freshCoder "abracadabra".toList).1.getD ([], [])).1).take m) ∧
    (decode (encode freshCoder "abracadabra".toList).2
      (((encode freshCoder "abracadabra".toList).1.getD ([], [])).1.dropLast)
      (build_frequency_table "abracadabra".toList)).1 = "abracadabr".toList := by
  constructor
  · have hne : "abracadabra".toList ≠ [] := by decide
    have hft : build_frequency_table "abracadabra".toList ≠ [] := by decide
    obtain ⟨root, hroot, _⟩ := build_huffman_tree_root hft
    have hnd := leafChars_nodup_of_build hroot
      (bft_keys_nodup "abracadabra".toList)
    have hlookup : ∀ c ∈ "abracadabra".toList,
        (dictGet? (codeEntries root []) c).isSome = true :=
      fun c hc => mem_entries_isSome hroot hc
    have henc := encodeText_eq (codeEntries root []) "abracadabra".toList hlookup
    have hst0 : encode freshCoder "abracadabra".toList =
        (some (("abracadabra".toList.map
            (fun c => (dictGet? (codeEntries root []) c).getD [])).flatten,
          build_frequency_table "abracadabra".toList),
         ⟨codeEntries root [], (codeEntries root []).map fun e => (e.2, e.1)⟩) := by
      simp only [encode, if_neg hne, hroot, generate_codes_eq_entries hnd, henc]
    intro m
    set bitsFull := (("abracadabra".toList.map
      (fun c => (dictGet? (codeEntries root []) c).getD [])).flatten) with hbf
    have hproj : ((encode freshCoder "abracadabra".toList).1.getD ([], [])).1 =
        bitsFull := by rw [hst0]; rfl
    have hproj2 : (encode freshCoder "abracadabra".toList).2 =
        ⟨codeEntries root [], (codeEntries root []).map fun e => (e.2, e.1)⟩ := by
      rw [hst0]
    rw [hproj, hproj2]
    by_cases hb : bitsFull.take m = []
    · rw [hb]
      exact ⟨[], _, [], decode_empty _ _ _ (Or.inl rfl), by rfl, by simp⟩
    · obtain ⟨emitted, rest, h1, h2, h3⟩ :=
        decodeLoop_sound ((codeEntries root []).map fun e => (e.2, e.1))
          (codeEntries root []) (rcodes_consistent hnd) (bitsFull.take m) [] []
      refine ⟨emitted,
        ⟨codeEntries root [], (codeEntries root []).map fun e => (e.2, e.1)⟩,
        rest, ?_, ?_, ?_⟩
      · rw [decode_eq_stored _ _ _ hb hft (by
          show codeEntries root [] ≠ []
          exact codeEntries_ne_nil root [])]
        rw [h1]
        simp
      · exact encodeText_eq _ _ h2
      · simpa using h3
  · decide

/-! ## The binary-heap ordering invariant -/

/-- The `heapq` invariant: every non-root entry is at least its parent. -/
def isHeap (l : List HuffmanNode) : Prop :=
  ∀ j, j < l.length → 0 < j →
    (hGet l ((j - 1) / 2)).freq ≤ (hGet l j).freq

instance (l : List HuffmanNode) : Decidable (isHeap l) := by
  unfold isHeap
  exact Nat.decidableBallLT l.length _

/-- The heap invariant away from a hole at `pos`: all parent/child pairs in
which `pos` is neither side. -/
def heapAbove (l : List HuffmanNode) (pos : Nat) : Prop :=
  ∀ j, j < l.length → 0 < j → j ≠ pos → (j - 1) / 2 ≠ pos →
    (hGet l ((j - 1) / 2)).freq ≤ (hGet l j).freq

theorem isHeap_root_le {l : List HuffmanNode} (hh : isHeap l) :
    ∀ j, j < l.length → (hGet l 0).freq ≤ (hGet l j).freq := by
  intro j
  induction j using Nat.strong_induction_on with
  | _ j ih =>
      intro hj
      cases Nat.eq_zero_or_pos j with
      | inl h0 => rw [h0]
      | inr h0 =>
          have hp : (j - 1) / 2 < j := by omega
          exact le_trans (ih ((j - 1) / 2) hp (lt_trans hp hj)) (hh j hj h0)

theorem hGet_eq_getElem {l : List HuffmanNode} {i : Nat} (h : i < l.length) :
    hGet l i = l[i] := by
  simp [hGet, List.getD_eq_getElem?_getD, List.getElem?_eq_getElem h]

theorem isHeap_root_min {l : List HuffmanNode} (hh : isHeap l) :
    ∀ y ∈ l, (hGet l 0).freq ≤ y.freq := by
  intro y hy
  obtain ⟨i, hi, rfl⟩ := List.mem_iff_getElem.mp hy
  rw [← hGet_eq_getElem hi]
  exact isHeap_root_le hh i hi

theorem set_heap_of {l : List HuffmanNode} {pos : Nat} {item : HuffmanNode}
    (hlt : pos < l.length) (H1 : heapAbove l pos)
    (Hc : ∀ j, j < l.length → (j - 1) / 2 = pos → 0 < j →
      item.freq ≤ (hGet l j).freq)
    (Hp : 0 < pos → (hGet l ((pos - 1) / 2)).freq ≤ item.freq) :
    isHeap (l.set pos item) := by
  intro j hj hj0
  rw [List.length_set] at hj
  by_cases hjp : j = pos
  · subst hjp
    have hppos : (j - 1) / 2 ≠ j := by omega
    rw [hGet_set_ne _ (fun h => hppos h.symm), hGet_set_self _ hlt]
    exact Hp hj0
  · rw [hGet_set_ne _ (fun h => hjp h.symm)]
    by_cases hcp : (j - 1) / 2 = pos
    · rw [hcp, hGet_set_self _ hlt]
      exact Hc j hj hcp hj0
    · rw [hGet_set_ne _ (fun h => hcp h.symm)]
      exact H1 j hj hj0 hjp hcp

theorem siftdownAux_isHeap :
    ∀ (fuel : Nat) (l : List HuffmanNode) (pos : Nat) (item : HuffmanNode),
      pos ≤ fuel → pos < l.length →
      heapAbove l pos →
      (∀ j, j < l.length → (j - 1) / 2 = pos → 0 < j →
        item.freq ≤ (hGet l j).freq ∧
        (0 < pos → (hGet l ((pos - 1) / 2)).freq ≤ (hGet l j).freq)) →
      isHeap (siftdownAux fuel l 0 pos item) := by
  intro fuel
  induction fuel with
  | zero =>
      intro l pos item hf hlt H1 H2
      have hp0 : pos = 0 := Nat.le_zero.mp hf
      subst hp0
      simp only [siftdownAux]
      exact set_heap_of hlt H1 (fun j hj hc h0 => (H2 j hj hc h0).1)
        (fun h => absurd h (by omega))
  | succ fuel ih =>
      intro l pos item hf hlt H1 H2
      simp only [siftdownAux]
      split
      · rename_i hpos0
        split
        · rename_i hless
          have hppos : (pos - 1) / 2 < pos := by omega
          have hplen : (pos - 1) / 2 < l.length := lt_trans hppos hlt
          apply ih (l.set pos (hGet l ((pos - 1) / 2))) ((pos - 1) / 2) item
            (by omega) (by simp [hplen])
          · -- the pairs away from the new hole
            intro j2 hj2 hj20 hj2p hparp
            rw [List.length_set] at hj2
            by_cases hj2pos : j2 = pos
            · exact absurd (by rw [hj2pos]) hparp
            · rw [hGet_set_ne _ (fun h => hj2pos h.symm)]
              by_cases hcpos : (j2 - 1) / 2 = pos
              · rw [hcpos, hGet_set_self _ hlt]
                exact (H2 j2 hj2 hcpos hj20).2 hpos0
              · rw [hGet_set_ne _ (fun h => hcpos h.symm)]
                exact H1 j2 hj2 hj20 hj2pos hcpos
          · -- the children of the new hole
            intro j2 hj2 hcj hj20
            rw [List.length_set] at hj2
            have hchild : j2 = 2 * ((pos - 1) / 2) + 1 ∨
                j2 = 2 * ((pos - 1) / 2) + 2 := by omega
            by_cases hj2pos : j2 = pos
            · rw [hj2pos, hGet_set_self _ hlt]
              constructor
              · exact le_of_lt hless
              · intro hp0
                have hgpne : ((pos - 1) / 2 - 1) / 2 ≠ pos := by omega
                rw [hGet_set_ne _ (fun h => hgpne h.symm)]
                exact H1 ((pos - 1) / 2) hplen hp0 (by omega) (by omega)
            · rw [hGet_set_ne _ (fun h => hj2pos h.symm)]
              have hje : (hGet l ((pos - 1) / 2)).freq ≤ (hGet l j2).freq := by
                have hx := H1 j2 hj2 hj20 hj2pos (by omega)
                rw [hcj] at hx
                exact hx
              constructor
              · exact le_trans (le_of_lt hless) hje
              · intro hp0
                have hgpne : ((pos - 1) / 2 - 1) / 2 ≠ pos := by omega
                rw [hGet_set_ne _ (fun h => hgpne h.symm)]
                exact le_trans
                  (H1 ((pos - 1) / 2) hplen hp0 (by omega) (by omega)) hje
        · rename_i hnless
          exact set_heap_of hlt H1 (fun j hj hc h0 => (H2 j hj hc h0).1)
            (fun _ => le_of_not_lt hnless)
      · rename_i hnpos
        have hp0 : pos = 0 := by omega
        subst hp0
        exact set_heap_of hlt H1 (fun j hj hc h0 => (H2 j hj hc h0).1)
          (fun h => absurd h (by omega))

theorem siftupAux_isHeap :
    ∀ (fuel : Nat) (l : List HuffmanNode) (ep pos : Nat) (item : HuffmanNode),
      ep = l.length →
      l.length ≤ fuel + pos →
      pos < l.length →
      heapAbove l pos →
      (∀ j, j < l.length → (j - 1) / 2 = pos → 0 < j →
        0 < pos → (hGet l ((pos - 1) / 2)).freq ≤ (hGet l j).freq) →
      isHeap (siftupAux fuel l ep 0 pos item) := by
  intro fuel
  induction fuel with
  | zero =>
      intro l ep pos item hep hfl hlt H1 H2
      exact absurd hlt (by omega)
  | succ fuel ih =>
      intro l ep pos item hep hfl hlt H1 H2
      simp only [siftupAux]
      split
      · rename_i hch
        set cp := if 2 * pos + 1 + 1 < ep ∧
            ¬ (hGet l (2 * pos + 1)).freq < (hGet l (2 * pos + 1 + 1)).freq then
            2 * pos + 1 + 1 else 2 * pos + 1 with hcp
        have hcpb : pos < cp ∧ cp < ep ∧ (cp - 1) / 2 = pos := by
          rw [hcp]
          split
          · exact ⟨by omega, by omega, by omega⟩
          · exact ⟨by omega, by omega, by omega⟩
        have hmin : ∀ j, j < ep → (j - 1) / 2 = pos → 0 < j →
            (hGet l cp).freq ≤ (hGet l j).freq := by
          intro j hj hcj hj0
          have hjor : j = 2 * pos + 1 ∨ j = 2 * pos + 1 + 1 := by omega
          rw [hcp]
          split
          · rename_i hco
            rcases hjor with rfl | rfl
            · exact le_of_not_lt hco.2
            · exact le_refl _
          · rename_i hco
            rcases hjor with rfl | rfl
            · exact le_refl _
            · rcases Decidable.not_and_iff_or_not.mp hco with hco1 | hco2
              · exact absurd hj hco1
              · exact le_of_lt (not_not.mp hco2)
        apply ih (l.set pos (hGet l cp)) ep cp item
          (by simp [hep]) (by simp; omega) (by simp; omega)
        · -- pairs away from the hole at cp
          intro j hj hj0 hjcp hparcp
          rw [List.length_set] at hj
          by_cases hjpos : j = pos
          · rw [hjpos, hGet_set_self _ hlt]
            have hp0 : 0 < pos := by omega
            have hpne : (pos - 1) / 2 ≠ pos := by omega
            rw [hGet_set_ne _ (fun h => hpne h.symm)]
            exact H2 cp (by omega) hcpb.2.2 (by omega) hp0
          · rw [hGet_set_ne _ (fun h => hjpos h.symm)]
            by_cases hparpos : (j - 1) / 2 = pos
            · rw [hparpos, hGet_set_self _ hlt]
              exact hmin j (by omega) hparpos hj0
            · rw [hGet_set_ne _ (fun h => hparpos h.symm)]
              exact H1 j hj hj0 hjpos hparpos
        · -- children of the hole at cp
          intro j hj hcj hj0 hcp0
          rw [List.length_set] at hj
          have hjgt : cp < j := by omega
          have hjne : j ≠ pos := by omega
          rw [hcpb.2.2, hGet_set_self _ hlt,
            hGet_set_ne _ (fun h => hjne h.symm)]
          have hx := H1 j hj hj0 hjne (by omega)
          rw [hcj] at hx
          exact hx
      · rename_i hch
        apply siftdownAux_isHeap pos (l.set pos item) pos item (le_refl _)
          (by simp [hlt])
        · intro j hj hj0 hjpos hparpos
          rw [List.length_set] at hj
          rw [hGet_set_ne _ (fun h => hjpos h.symm),
            hGet_set_ne _ (fun h => hparpos h.symm)]
          exact H1 j hj hj0 hjpos hparpos
        · intro j hj hc h0
          rw [List.length_set] at hj
          exact absurd hj (by omega)

theorem hGet_append_lt (t s : List HuffmanNode) (k : Nat) (hk : k < t.length) :
    hGet (t ++ s) k = hGet t k := by
  simp [hGet, List.getD_eq_getElem?_getD, List.getElem?_append, hk]

theorem hGet_cons_pos (a : HuffmanNode) (t : List HuffmanNode) (k : Nat)
    (hk : 0 < k) : hGet (a :: t) k = hGet t (k - 1) := by
  cases k with
  | zero => omega
  | succ m => simp [hGet]

theorem heappush_isHeap {h : List HuffmanNode} (hh : isHeap h)
    (x : HuffmanNode) : isHeap (heappush h x) := by
  rw [heappush, siftdown]
  apply siftdownAux_isHeap h.length (h ++ [x]) h.length
    (hGet (h ++ [x]) h.length) (le_refl _) (by simp)
  · intro j hj hj0 hjp hpar
    simp only [List.length_append, List.length_singleton] at hj
    have hjlt : j < h.length := by omega
    have hplt : (j - 1) / 2 < h.length := by omega
    rw [hGet_append_lt _ _ _ hjlt, hGet_append_lt _ _ _ hplt]
    exact hh j hjlt hj0
  · intro j hj hc h0
    simp only [List.length_append, List.length_singleton] at hj
    exact absurd hj (by omega)

theorem heappop_isHeap {h h2 : List HuffmanNode} {x : HuffmanNode}
    (hh : isHeap h) (hp : heappop h = some (x, h2)) : isHeap h2 := by
  rcases List.eq_nil_or_concat h with rfl | ⟨L, b, rfl⟩
  · simp [heappop] at hp
  · simp only [List.concat_eq_append] at hp hh ⊢
    cases L with
    | nil =>
        rw [List.nil_append, heappop_single] at hp
        have hpair := Option.some.inj hp
        have hh2 : h2 = [] := (congrArg Prod.snd hpair).symm
        rw [hh2]
        intro j hj hj0
        simp at hj
    | cons hd t =>
        have hc := heappop_concat hd t b
        simp only [List.cons_append] at hc hp
        rw [hc] at hp
        have hpair := Option.some.inj hp
        have hh2 : h2 = siftup (b :: t) 0 := (congrArg Prod.snd hpair).symm
        rw [hh2, siftup]
        apply siftupAux_isHeap (b :: t).length (b :: t) (b :: t).length 0
          (hGet (b :: t) 0) rfl (by simp) (by simp)
        · intro j hj hj0 hjp hpar
          simp only [List.length_cons] at hj
          have hjt : j - 1 < t.length := by omega
          have hpj : 0 < (j - 1) / 2 := by omega
          have hpt : (j - 1) / 2 - 1 < t.length := by omega
          rw [hGet_cons_pos _ _ j hj0, hGet_cons_pos _ _ _ hpj]
          have hfull := hh j (by simp; omega) hj0
          simp only [List.cons_append] at hfull
          rw [hGet_cons_pos _ _ j hj0, hGet_cons_pos _ _ _ hpj,
            hGet_append_lt _ _ _ hjt, hGet_append_lt _ _ _ hpt] at hfull
          exact hfull
        · intro j hj hc2 h0 h00
          omega
  
theorem heappop_min {h h2 : List HuffmanNode} {x : HuffmanNode}
    (hh : isHeap h) (hp : heappop h = some (x, h2)) :
    ∀ y ∈ h, x.freq ≤ y.freq := by
  rcases List.eq_nil_or_concat h with rfl | ⟨L, b, rfl⟩
  · simp [heappop] at hp
  · simp only [List.concat_eq_append] at hp hh ⊢
    cases L with
    | nil =>
        rw [List.nil_append, heappop_single] at hp
        have hx : x = b := (congrArg Prod.fst (Option.some.inj hp)).symm
        intro y hy
        simp at hy
        rw [hx, hy]
    | cons hd t =>
        have hc := heappop_concat hd t b
        simp only [List.cons_append] at hc hp
        rw [hc] at hp
        have hx : x = hd := (congrArg Prod.fst (Option.some.inj hp)).symm
        have hx0 : hGet (hd :: (t ++ [b])) 0 = hd := by simp [hGet]
        rw [hx, ← hx0]
        exact isHeap_root_min hh

theorem foldl_heappush_isHeap (ft : List (Char × Nat))
    (acc : List HuffmanNode) (hh : isHeap acc) :
    isHeap (ft.foldl (fun h cf => heappush h (.leaf cf.1 cf.2)) acc) := by
  induction ft generalizing acc with
  | nil => exact hh
  | cons cf rest ih =>
      simp only [List.foldl_cons]
      exact ih _ (heappush_isHeap hh _)

/-- claim C7 (amended): under the heap invariant, one iteration of the
`build_huffman_tree` loop pops a minimum-weight node, then a minimum-weight
node of the remainder, merges them into an internal node whose weight is the
sum (left = first popped, right = second popped), pushes it back (the heap
invariant and the node multiset are preserved), and the loop leaves any heap
with at most one node unchanged. -/
theorem build_merge_step (heap : List HuffmanNode) (fuel : Nat)
    (hh : isHeap heap) (hlen : 2 ≤ heap.length) :
    (∃ n1 h1 n2 h2,
      heappop heap = some (n1, h1) ∧ heappop h1 = some (n2, h2) ∧
      (∀ y ∈ heap, n1.freq ≤ y.freq) ∧
      (∀ y ∈ h1, n2.freq ≤ y.freq) ∧
      (↑heap : Multiset HuffmanNode) = n1 ::ₘ n2 ::ₘ ↑h2 ∧
      mergeStep n1 n2 = HuffmanNode.node (n1.freq + n2.freq) n1 n2 ∧
      buildLoop (fuel + 1) heap =
        buildLoop fuel (heappush h2 (mergeStep n1 n2)) ∧
      isHeap (heappush h2 (mergeStep n1 n2))) ∧
    (∀ (g : Nat) (hp : List HuffmanNode), hp.length ≤ 1 → buildLoop g hp = hp) := by
  constructor
  · have hne : heap ≠ [] := by
      intro hcon
      rw [hcon] at hlen
      simp at hlen
    cases hp1 : heappop heap with
    | none => rw [heappop_eq_none_iff] at hp1; exact absurd hp1 hne
    | some p1 =>
        obtain ⟨n1, h1⟩ := p1
        have hs1 := heappop_spec hp1
        have hh1 : isHeap h1 := heappop_isHeap hh hp1
        have hne1 : h1 ≠ [] := by
          intro hcon
          rw [hcon] at hs1
          simp at hs1
          omega
        cases hp2 : heappop h1 with
        | none => rw [heappop_eq_none_iff] at hp2; exact absurd hp2 hne1
        | some p2 =>
            obtain ⟨n2, h2⟩ := p2
            have hs2 := heappop_spec hp2
            refine ⟨n1, h1, n2, h2, rfl, hp2, heappop_min hh hp1,
              heappop_min hh1 hp2, ?_, rfl, ?_, heappush_isHeap
                (heappop_isHeap hh1 hp2) _⟩
            · rw [hs1.1, hs2.1]
            · simp only [buildLoop]
              rw [if_pos (by omega), hp1]
              simp only [hp2]
  · intro g hp hle
    cases g with
    | zero => rfl
    | succ g =>
        simp only [buildLoop]
        rw [if_neg (by omega)]

/-- Modelled from the spec (claim C7's tie-break rule, spec §4.2): pop the
minimum of a queue of `(node, id)` pairs, ordered primarily by weight and
secondarily by the monotonically increasing creation-order id (lower id wins
ties); earlier entries win structurally only when strictly lex-smaller is
absent, but ids are unique so the order is total. -/
def specPop : List (HuffmanNode × Nat) →
    Option ((HuffmanNode × Nat) × List (HuffmanNode × Nat))
  | [] => none
  | x :: xs =>
      match specPop xs with
      | none => some (x, [])
      | some (m, rest) =>
          if m.1.freq < x.1.freq ∨ (m.1.freq = x.1.freq ∧ m.2 < x.2) then
            some (m, x :: rest)
          else some (x, xs)

/-- Modelled from the spec: the merge loop of §4.2 — pop the two minima by
(weight, id), merge with left = first popped and right = second popped, tag
the merged node with the next id (larger than both inputs') and continue
until one node remains. -/
def specLoop (fuel : Nat) (q : List (HuffmanNode × Nat)) (nextId : Nat) :
    List (HuffmanNode × Nat) :=
  match fuel with
  | 0 => q
  | fuel + 1 =>
      if 1 < q.length then
        match specPop q with
        | none => q
        | some (n1, q1) =>
            match specPop q1 with
            | none => q
            | some (n2, q2) =>
                specLoop fuel ((mergeStep n1.1 n2.1, nextId) :: q2) (nextId + 1)
      else q

/-- Modelled from the spec: the TreeBuilder of §4.2, seeding one leaf per
table entry with creation-order ids `0, 1, …` in table order. -/
def specBuildTree (ft : List (Char × Nat)) : Option HuffmanNode :=
  if ft = [] then none
  else
    let seeds := ft.enum.map
      (fun p => ((HuffmanNode.leaf p.2.1 p.2.2 : HuffmanNode), p.1))
    ((specLoop seeds.length seeds ft.length).head?).map Prod.fst

/-- claim C7 (counterexample): on the frequency table of `"abracadabra"`
(a:5, b:2, r:2, c:1, d:1 in first-occurrence order) the code's heapq pops the
two weight-2 leaves in the order `r` before `b`, whereas the claimed
creation-order-id rule pops `b` (id 1) before `r` (id 2): the built trees
differ, and the code tables give `b ↦ 111` (code) versus `b ↦ 110`
(id rule). -/
theorem heap_order_differs_from_id_rule :
    build_huffman_tree (build_frequency_table "abracadabra".toList) ≠
      specBuildTree (build_frequency_table "abracadabra".toList) ∧
    dictGet? (generate_codes (build_huffman_tree
      (build_frequency_table "abracadabra".toList)) [] [] []).1 'b' =
      some [true, true, true] ∧
    dictGet? (generate_codes (specBuildTree
      (build_frequency_table "abracadabra".toList)) [] [] []).1 'b' =
      some [true, true, false] := by
  exact ⟨by decide, by decide, by decide⟩

/-- claim C7 (witness): the merge-step theorem applied to a two-leaf heap. -/
theorem build_merge_step_witness :
    isHeap [HuffmanNode.leaf 'a' 1, HuffmanNode.leaf 'b' 2] ∧
    2 ≤ ([HuffmanNode.leaf 'a' 1, HuffmanNode.leaf 'b' 2] :
      List HuffmanNode).length ∧
    ((∃ n1 h1 n2 h2,
      heappop [HuffmanNode.leaf 'a' 1, HuffmanNode.leaf 'b' 2] =
        some (n1, h1) ∧
      heappop h1 = some (n2, h2) ∧
      (∀ y ∈ [HuffmanNode.leaf 'a' 1, HuffmanNode.leaf 'b' 2],
        n1.freq ≤ y.freq) ∧
      (∀ y ∈ h1, n2.freq ≤ y.freq) ∧
      (↑[HuffmanNode.leaf 'a' 1, HuffmanNode.leaf 'b' 2] :
        Multiset HuffmanNode) = n1 ::ₘ n2 ::ₘ ↑h2 ∧
      mergeStep n1 n2 = HuffmanNode.node (n1.freq + n2.freq) n1 n2 ∧
      buildLoop 1 [HuffmanNode.leaf 'a' 1, HuffmanNode.leaf 'b' 2] =
        buildLoop 0 (heappush h2 (mergeStep n1 n2)) ∧
      isHeap (heappush h2 (mergeStep n1 n2))) ∧
    (∀ (g : Nat) (hp : List HuffmanNode), hp.length ≤ 1 → buildLoop g hp = hp)) :=
  ⟨by decide, by decide,
    build_merge_step [HuffmanNode.leaf 'a' 1, HuffmanNode.leaf 'b' 2] 0
      (by decide) (by decide)⟩

/-! ## Optimality: shape trees over weight multisets

The optimality claim compares the built code against every prefix-free
assignment for the same weight multiset.  Shape trees (`BT`) carry only the
leaf weights; paths index subtrees (`false` = left, `true` = right). -/

inductive BT : Type where
  | leaf (w : Nat)
  | node (l r : BT)
deriving DecidableEq

/-- Total leaf weight. -/
def wsumBT : BT → Nat
  | .leaf w => w
  | .node l r => wsumBT l + wsumBT r

/-- Weighted path length: each leaf weight counts once per edge above it. -/
def costBT : BT → Nat
  | .leaf _ => 0
  | .node l r => costBT l + costBT r + wsumBT l + wsumBT r

/-- The multiset of leaf weights. -/
def leavesBT : BT → Multiset Nat
  | .leaf w => {w}
  | .node l r => leavesBT l + leavesBT r

/-- Height. -/
def hgtBT : BT → Nat
  | .leaf _ => 0
  | .node l r => max (hgtBT l) (hgtBT r) + 1

/-- The subtree at a path (`false` = left, `true` = right). -/
def getAt : BT → List Bool → Option BT
  | t, [] => some t
  | .leaf _, _ :: _ => none
  | .node l _, false :: p => getAt l p
  | .node _ r, true :: p => getAt r p

/-- Replace the subtree at a path. -/
def setAt : BT → List Bool → BT → Option BT
  | _, [], s => some s
  | .leaf _, _ :: _, _ => none
  | .node l r, false :: p, s => (setAt l p s).map (fun l2 => .node l2 r)
  | .node l r, true :: p, s => (setAt r p s).map (fun r2 => .node l r2)

theorem getAt_nil (t : BT) : getAt t [] = some t := by
  cases t <;> rfl

theorem leavesBT_card_pos (t : BT) : 0 < Multiset.card (leavesBT t) := by
  induction t with
  | leaf w => simp [leavesBT]
  | node l r ihl ihr => simp [leavesBT]; omega

theorem getAt_append (t : BT) (p q : List Bool) :
    getAt t (p ++ q) = (getAt t p).bind (fun u => getAt u q) := by
  induction p generalizing t with
  | nil => simp [getAt]
  | cons b p ih =>
      cases t with
      | leaf w => cases b <;> simp [getAt]
      | node l r => cases b <;> simp only [List.cons_append, getAt] <;> exact ih _

theorem setAt_exists {t : BT} {p : List Bool} {u : BT}
    (h : getAt t p = some u) (s : BT) : ∃ t2, setAt t p s = some t2 := by
  induction p generalizing t with
  | nil => exact ⟨s, by simp [setAt]⟩
  | cons b p ih =>
      cases t with
      | leaf w => simp [getAt] at h
      | node l r =>
          cases b with
          | false =>
              simp only [getAt] at h
              obtain ⟨l2, hl2⟩ := ih h
              exact ⟨.node l2 r, by simp [setAt, hl2]⟩
          | true =>
              simp only [getAt] at h
              obtain ⟨r2, hr2⟩ := ih h
              exact ⟨.node l r2, by simp [setAt, hr2]⟩

theorem setAt_wsum {t t2 u s : BT} {p : List Bool}
    (hg : getAt t p = some u) (hs : setAt t p s = some t2) :
    wsumBT t2 + wsumBT u = wsumBT t + wsumBT s := by
  induction p generalizing t t2 with
  | nil =>
      simp only [getAt] at hg
      simp only [setAt] at hs
      obtain rfl := Option.some.inj hg
      obtain rfl := Option.some.inj hs
      omega
  | cons b p ih =>
      cases t with
      | leaf w => simp [getAt] at hg
      | node l r =>
          cases b with
          | false =>
              simp only [getAt] at hg
              simp only [setAt] at hs
              obtain ⟨l2, hl2, rfl⟩ := Option.map_eq_some'.mp hs
              have hih := ih hg hl2
              simp only [wsumBT]
              omega
          | true =>
              simp only [getAt] at hg
              simp only [setAt] at hs
              obtain ⟨r2, hr2, rfl⟩ := Option.map_eq_some'.mp hs
              have hih := ih hg hr2
              simp only [wsumBT]
              omega

theorem setAt_leaves {t t2 u s : BT} {p : List Bool}
    (hg : getAt t p = some u) (hs : setAt t p s = some t2) :
    leavesBT t2 + leavesBT u = leavesBT t + leavesBT s := by
  induction p generalizing t t2 with
  | nil =>
      simp only [getAt] at hg
      simp only [setAt] at hs
      obtain rfl := Option.some.inj hg
      obtain rfl := Option.some.inj hs
      exact add_comm _ _
  | cons b p ih =>
      cases t with
      | leaf w => simp [getAt] at hg
      | node l r =>
          cases b with
          | false =>
              simp only [getAt] at hg
              simp only [setAt] at hs
              obtain ⟨l2, hl2, rfl⟩ := Option.map_eq_some'.mp hs
              have hih := ih hg hl2
              simp only [leavesBT]
              calc leavesBT l2 + leavesBT r + leavesBT u
                  = leavesBT l2 + leavesBT u + leavesBT r := by ac_rfl
                _ = leavesBT l + leavesBT s + leavesBT r := by rw [hih]
                _ = leavesBT l + leavesBT r + leavesBT s := by ac_rfl
          | true =>
              simp only [getAt] at hg
              simp only [setAt] at hs
              obtain ⟨r2, hr2, rfl⟩ := Option.map_eq_some'.mp hs
              have hih := ih hg hr2
              simp only [leavesBT]
              calc leavesBT l + leavesBT r2 + leavesBT u
                  = leavesBT l + (leavesBT r2 + leavesBT u) := by ac_rfl
                _ = leavesBT l + (leavesBT r + leavesBT s) := by rw [hih]
                _ = leavesBT l + leavesBT r + leavesBT s := by ac_rfl

theorem setAt_cost {t t2 u s : BT} {p : List Bool}
    (hg : getAt t p = some u) (hs : setAt t p s = some t2) :
    costBT t2 + costBT u + p.length * wsumBT u =
      costBT t + costBT s + p.length * wsumBT s := by
  induction p generalizing t t2 with
  | nil =>
      simp only [getAt] at hg
      simp only [setAt] at hs
      obtain rfl := Option.some.inj hg
      obtain rfl := Option.some.inj hs
      simp only [List.length_nil, Nat.zero_mul]
      omega
  | cons b p ih =>
      cases t with
      | leaf w => simp [getAt] at hg
      | node l r =>
          cases b with
          | false =>
              simp only [getAt] at hg
              simp only [setAt] at hs
              obtain ⟨l2, hl2, rfl⟩ := Option.map_eq_some'.mp hs
              have hih := ih hg hl2
              have hws := setAt_wsum hg hl2
              simp only [costBT, List.length_cons]
              have e1 : (p.length + 1) * wsumBT u =
                  p.length * wsumBT u + wsumBT u := by ring
              have e2 : (p.length + 1) * wsumBT s =
                  p.length * wsumBT s + wsumBT s := by ring
              omega
          | true =>
              simp only [getAt] at hg
              simp only [setAt] at hs
              obtain ⟨r2, hr2, rfl⟩ := Option.map_eq_some'.mp hs
              have hih := ih hg hr2
              have hws := setAt_wsum hg hr2
              simp only [costBT, List.length_cons]
              have e1 : (p.length + 1) * wsumBT u =
                  p.length * wsumBT u + wsumBT u := by ring
              have e2 : (p.length + 1) * wsumBT s =
                  p.length * wsumBT s + wsumBT s := by ring
              omega

theorem setAt_get {t t2 u s : BT} {p : List Bool}
    (hg : getAt t p = some u) (hs : setAt t p s = some t2) :
    getAt t2 p = some s := by
  induction p generalizing t t2 with
  | nil =>
      simp only [setAt] at hs
      obtain rfl := Option.some.inj hs
      exact getAt_nil s
  | cons b p ih =>
      cases t with
      | leaf w => simp [getAt] at hg
      | node l r =>
          cases b with
          | false =>
              simp only [getAt] at hg
              simp only [setAt] at hs
              obtain ⟨l2, hl2, rfl⟩ := Option.map_eq_some'.mp hs
              simp only [getAt]
              exact ih hg hl2
          | true =>
              simp only [getAt] at hg
              simp only [setAt] at hs
              obtain ⟨r2, hr2, rfl⟩ := Option.map_eq_some'.mp hs
              simp only [getAt]
              exact ih hg hr2

theorem setAt_frame {s : BT} :
    ∀ {p q : List Bool} {t t2 : BT}, setAt t p s = some t2 →
      isPrefB p q = false → isPrefB q p = false →
      getAt t2 q = getAt t q := by
  intro p
  induction p with
  | nil =>
      intro q t t2 hs h1 h2
      simp [isPrefB] at h1
  | cons b p ih =>
      intro q t t2 hs h1 h2
      cases t with
      | leaf w => simp [setAt] at hs
      | node l r =>
          cases q with
          | nil => simp [isPrefB] at h2
          | cons c q =>
              cases b with
              | false =>
                  simp only [setAt] at hs
                  obtain ⟨l2, hl2, rfl⟩ := Option.map_eq_some'.mp hs
                  cases c with
                  | false =>
                      simp only [isPrefB, Bool.and_eq_true] at h1 h2
                      simp only [getAt]
                      exact ih hl2 (by simpa using h1) (by simpa using h2)
                  | true => simp only [getAt]
              | true =>
                  simp only [setAt] at hs
                  obtain ⟨r2, hr2, rfl⟩ := Option.map_eq_some'.mp hs
                  cases c with
                  | false => simp only [getAt]
                  | true =>
                      simp only [isPrefB, Bool.and_eq_true] at h1 h2
                      simp only [getAt]
                      exact ih hr2 (by simpa using h1) (by simpa using h2)

theorem setAt_leaf_hgt {x y : Nat} :
    ∀ {p : List Bool} {t t2 : BT},
      getAt t p = some (.leaf x) → setAt t p (.leaf y) = some t2 →
      hgtBT t2 = hgtBT t := by
  intro p
  induction p with
  | nil =>
      intro t t2 hg hs
      simp only [getAt_nil] at hg
      simp only [setAt] at hs
      obtain rfl := Option.some.inj hg
      obtain rfl := Option.some.inj hs
      rfl
  | cons b p ih =>
      intro t t2 hg hs
      cases t with
      | leaf w => simp [getAt] at hg
      | node l r =>
          cases b with
          | false =>
              simp only [getAt] at hg
              simp only [setAt] at hs
              obtain ⟨l2, hl2, rfl⟩ := Option.map_eq_some'.mp hs
              simp [hgtBT, ih hg hl2]
          | true =>
              simp only [getAt] at hg
              simp only [setAt] at hs
              obtain ⟨r2, hr2, rfl⟩ := Option.map_eq_some'.mp hs
              simp [hgtBT, ih hg hr2]

theorem getAt_length_le :
    ∀ {p : List Bool} {t u : BT}, getAt t p = some u → p.length ≤ hgtBT t := by
  intro p
  induction p with
  | nil => intro t u _; simp
  | cons b p ih =>
      intro t u hg
      cases t with
      | leaf w => simp [getAt] at hg
      | node l r =>
          cases b with
          | false =>
              simp only [getAt] at hg
              have := ih hg
              simp only [List.length_cons, hgtBT]
              omega
          | true =>
              simp only [getAt] at hg
              have := ih hg
              simp only [List.length_cons, hgtBT]
              omega

theorem deep_pair :
    ∀ (t l0 r0 : BT), t = .node l0 r0 →
      ∃ p a b2, getAt t p = some (.node (.leaf a) (.leaf b2)) ∧
        p.length + 1 = hgtBT t := by
  intro t
  induction t with
  | leaf w => intro l0 r0 h; exact absurd h (by simp)
  | node l r ihl ihr =>
      intro l0 r0 _
      by_cases hcmp : hgtBT r ≤ hgtBT l
      · cases l with
        | leaf a =>
            cases r with
            | leaf b2 =>
                exact ⟨[], a, b2, by rw [getAt_nil], by simp [hgtBT]⟩
            | node rl rr =>
                exfalso
                simp [hgtBT] at hcmp
        | node ll lr =>
            obtain ⟨p, a, b2, hp, hlen⟩ := ihl ll lr rfl
            refine ⟨false :: p, a, b2, ?_, ?_⟩
            · simp only [getAt]; exact hp
            · have hrw : hgtBT (BT.node (BT.node ll lr) r) =
                  max (hgtBT (BT.node ll lr)) (hgtBT r) + 1 := rfl
              simp only [List.length_cons]
              rw [hrw, Nat.max_eq_left hcmp]
              omega
      · cases r with
        | leaf b2 =>
            exfalso
            simp [hgtBT] at hcmp
        | node rl rr =>
            obtain ⟨p, a, b2, hp, hlen⟩ := ihr rl rr rfl
            refine ⟨true :: p, a, b2, ?_, ?_⟩
            · simp only [getAt]; exact hp
            · have hrw : hgtBT (BT.node l (BT.node rl rr)) =
                  max (hgtBT l) (hgtBT (BT.node rl rr)) + 1 := rfl
              simp only [List.length_cons]
              rw [hrw, Nat.max_eq_right (le_of_not_le hcmp)]
              omega

theorem leaf_pos_of_mem :
    ∀ {t : BT} {w : Nat}, w ∈ leavesBT t →
      ∃ q, getAt t q = some (.leaf w) := by
  intro t
  induction t with
  | leaf w2 =>
      intro w h
      simp [leavesBT] at h
      exact ⟨[], by rw [getAt_nil, h]⟩
  | node l r ihl ihr =>
      intro w h
      simp only [leavesBT, Multiset.mem_add] at h
      rcases h with h | h
      · obtain ⟨q, hq⟩ := ihl h
        exact ⟨false :: q, by simpa [getAt] using hq⟩
      · obtain ⟨q, hq⟩ := ihr h
        exact ⟨true :: q, by simpa [getAt] using hq⟩

theorem mem_of_leaf_pos :
    ∀ {p : List Bool} {t : BT} {w : Nat},
      getAt t p = some (.leaf w) → w ∈ leavesBT t := by
  intro p
  induction p with
  | nil =>
      intro t w hg
      rw [getAt_nil] at hg
      obtain rfl := Option.some.inj hg
      simp [leavesBT]
  | cons b p ih =>
      intro t w hg
      cases t with
      | leaf w2 => simp [getAt] at hg
      | node l r =>
          cases b with
          | false =>
              simp only [getAt] at hg
              simp only [leavesBT, Multiset.mem_add]
              exact Or.inl (ih hg)
          | true =>
              simp only [getAt] at hg
              simp only [leavesBT, Multiset.mem_add]
              exact Or.inr (ih hg)

theorem pref_leaf_absurd {t : BT} {q r : List Bool} {x y : Nat}
    (h1 : getAt t q = some (.leaf x))
    (h2 : getAt t (q ++ r) = some (.leaf y)) (hr : r ≠ []) : False := by
  rw [getAt_append, h1] at h2
  cases r with
  | nil => exact hr rfl
  | cons b r2 => simp [getAt] at h2

theorem leaf_pos_not_pref {t : BT} {q1 q2 : List Bool} {x y : Nat}
    (h1 : getAt t q1 = some (.leaf x)) (h2 : getAt t q2 = some (.leaf y))
    (hne : q1 ≠ q2) : isPrefB q1 q2 = false ∧ isPrefB q2 q1 = false := by
  constructor
  · cases hc : isPrefB q1 q2 with
    | false => rfl
    | true =>
        obtain ⟨r, hr⟩ := (isPrefB_iff q1 q2).mp hc
        exfalso
        cases hrn : r with
        | nil =>
            rw [hrn] at hr
            simp at hr
            exact hne hr
        | cons b r2 =>
            exact pref_leaf_absurd h1 (by rw [hr]; exact h2) (by simp [hrn])
  · cases hc : isPrefB q2 q1 with
    | false => rfl
    | true =>
        obtain ⟨r, hr⟩ := (isPrefB_iff q2 q1).mp hc
        exfalso
        cases hrn : r with
        | nil =>
            rw [hrn] at hr
            simp at hr
            exact hne hr.symm
        | cons b r2 =>
            exact pref_leaf_absurd h2 (by rw [hr]; exact h1) (by simp [hrn])

theorem leaf_pair_sub :
    ∀ {t : BT} {q1 q2 : List Bool} {x y : Nat},
      getAt t q1 = some (.leaf x) → getAt t q2 = some (.leaf y) → q1 ≠ q2 →
      ∃ V0, leavesBT t = x ::ₘ y ::ₘ V0 := by
  intro t
  induction t with
  | leaf w =>
      intro q1 q2 x y h1 h2 hne
      cases q1 with
      | nil =>
          cases q2 with
          | nil => exact absurd rfl hne
          | cons b p => simp [getAt] at h2
      | cons b p => simp [getAt] at h1
  | node l r ihl ihr =>
      intro q1 q2 x y h1 h2 hne
      cases q1 with
      | nil =>
          rw [getAt_nil] at h1
          exact absurd (Option.some.inj h1) (by simp)
      | cons b1 p1 =>
          cases q2 with
          | nil =>
              rw [getAt_nil] at h2
              exact absurd (Option.some.inj h2) (by simp)
          | cons b2 p2 =>
              cases b1 with
              | false =>
                  cases b2 with
                  | false =>
                      simp only [getAt] at h1 h2
                      obtain ⟨V0, hV0⟩ := ihl h1 h2
                        (fun h => hne (by rw [h]))
                      exact ⟨V0 + leavesBT r, by
                        simp only [leavesBT, hV0]
                        simp [Multiset.cons_add]⟩
                  | true =>
                      simp only [getAt] at h1 h2
                      have hx := mem_of_leaf_pos h1
                      have hy := mem_of_leaf_pos h2
                      refine ⟨(leavesBT l).erase x + (leavesBT r).erase y, ?_⟩
                      simp only [leavesBT]
                      conv_lhs => rw [← Multiset.cons_erase hx,
                        ← Multiset.cons_erase hy]
                      rw [Multiset.cons_add, Multiset.add_cons]
              | true =>
                  cases b2 with
                  | false =>
                      simp only [getAt] at h1 h2
                      have hx := mem_of_leaf_pos h1
                      have hy := mem_of_leaf_pos h2
                      refine ⟨(leavesBT l).erase y + (leavesBT r).erase x, ?_⟩
                      simp only [leavesBT]
                      conv_lhs => rw [← Multiset.cons_erase hy,
                        ← Multiset.cons_erase hx]
                      rw [Multiset.cons_add, Multiset.add_cons, Multiset.cons_swap]
                  | true =>
                      simp only [getAt] at h1 h2
                      obtain ⟨V0, hV0⟩ := ihr h1 h2
                        (fun h => hne (by rw [h]))
                      exact ⟨leavesBT l + V0, by
                        simp only [leavesBT, hV0]
                        rw [Multiset.add_cons, Multiset.add_cons]⟩

theorem leaf_pos_alt :
    ∀ {t : BT} {q : List Bool} {x y : Nat} {M : Multiset Nat},
      getAt t q = some (.leaf x) → leavesBT t = x ::ₘ M → y ∈ M →
      ∃ q2, q2 ≠ q ∧ getAt t q2 = some (.leaf y) := by
  intro t
  induction t with
  | leaf w =>
      intro q x y M hq hl hy
      exfalso
      have hc : (1 : Nat) = Multiset.card M + 1 := by
        have := congrArg Multiset.card hl
        simpa [leavesBT] using this
      have hM : M = 0 := Multiset.card_eq_zero.mp (by omega)
      rw [hM] at hy
      simp at hy
  | node l r ihl ihr =>
      intro q x y M hq hl hy
      simp only [leavesBT] at hl
      cases q with
      | nil =>
          rw [getAt_nil] at hq
          exact absurd (Option.some.inj hq) (by simp)
      | cons b q' =>
          cases b with
          | false =>
              simp only [getAt] at hq
              have hx : x ∈ leavesBT l := mem_of_leaf_pos hq
              have hel : leavesBT l = x ::ₘ (leavesBT l).erase x :=
                (Multiset.cons_erase hx).symm
              have h1 : x ::ₘ ((leavesBT l).erase x + leavesBT r) = x ::ₘ M := by
                rw [← Multiset.cons_add, ← hel]
                exact hl
              have hM : (leavesBT l).erase x + leavesBT r = M :=
                (Multiset.cons_inj_right x).mp h1
              rcases Multiset.mem_add.mp (hM ▸ hy) with hyl | hyr
              · obtain ⟨q2, hne, hq2⟩ := ihl hq hel hyl
                refine ⟨false :: q2, ?_, ?_⟩
                · intro hcon
                  injection hcon with h1 h2
                  exact hne h2
                · simp only [getAt]
                  exact hq2
              · obtain ⟨qr, hqr⟩ := leaf_pos_of_mem hyr
                refine ⟨true :: qr, by simp, ?_⟩
                simp only [getAt]
                exact hqr
          | true =>
              simp only [getAt] at hq
              have hx : x ∈ leavesBT r := mem_of_leaf_pos hq
              have her : leavesBT r = x ::ₘ (leavesBT r).erase x :=
                (Multiset.cons_erase hx).symm
              have h1 : x ::ₘ (leavesBT l + (leavesBT r).erase x) = x ::ₘ M := by
                rw [← Multiset.add_cons, ← her]
                exact hl
              have hM : leavesBT l + (leavesBT r).erase x = M :=
                (Multiset.cons_inj_right x).mp h1
              rcases Multiset.mem_add.mp (hM ▸ hy) with hyl | hyr
              · obtain ⟨ql, hql⟩ := leaf_pos_of_mem hyl
                refine ⟨false :: ql, by simp, ?_⟩
                simp only [getAt]
                exact hql
              · obtain ⟨q2, hne, hq2⟩ := ihr hq her hyr
                refine ⟨true :: q2, ?_, ?_⟩
                · intro hcon
                  injection hcon with h1 h2
                  exact hne h2
                · simp only [getAt]
                  exact hq2

theorem swap_leaves {t : BT} {q q' : List Bool} {x y : Nat}
    (hq : getAt t q = some (.leaf x)) (hq' : getAt t q' = some (.leaf y))
    (hne : q ≠ q') :
    ∃ t2, getAt t2 q = some (.leaf y) ∧ getAt t2 q' = some (.leaf x) ∧
      leavesBT t2 = leavesBT t ∧ hgtBT t2 = hgtBT t ∧
      costBT t2 + q.length * x + q'.length * y =
        costBT t + q.length * y + q'.length * x ∧
      ∀ r z, getAt t r = some (.leaf z) → r ≠ q → r ≠ q' →
        getAt t2 r = some (.leaf z) := by
  obtain ⟨hpf1, hpf2⟩ := leaf_pos_not_pref hq hq' hne
  obtain ⟨ta, hta⟩ := setAt_exists hq (.leaf y)
  have htaq : getAt ta q = some (.leaf y) := setAt_get hq hta
  have htaq' : getAt ta q' = some (.leaf y) := by
    rw [setAt_frame hta hpf1 hpf2]
    exact hq'
  obtain ⟨t2, ht2⟩ := setAt_exists htaq' (.leaf x)
  have h2q' : getAt t2 q' = some (.leaf x) := setAt_get htaq' ht2
  have h2q : getAt t2 q = some (.leaf y) := by
    rw [setAt_frame ht2 hpf2 hpf1]
    exact htaq
  have hlva := setAt_leaves hq hta
  have hlv2 := setAt_leaves htaq' ht2
  simp only [leavesBT] at hlva hlv2
  have hlv : leavesBT t2 = leavesBT t := by
    have : leavesBT t2 + {y} = leavesBT t + {y} := by
      rw [hlv2, hlva]
    exact add_right_cancel this
  have hga := setAt_leaf_hgt hq hta
  have hg2 := setAt_leaf_hgt htaq' ht2
  have hca := setAt_cost hq hta
  have hc2 := setAt_cost htaq' ht2
  simp only [costBT, wsumBT] at hca hc2
  refine ⟨t2, h2q, h2q', hlv, by rw [hg2, hga], by omega, ?_⟩
  intro r z hr hrq hrq'
  obtain ⟨hr1, hr2⟩ := leaf_pos_not_pref hr hq hrq
  obtain ⟨hr1', hr2'⟩ := leaf_pos_not_pref hr hq' hrq'
  rw [setAt_frame ht2 hr2' hr1', setAt_frame hta hr2 hr1]
  exact hr

theorem node_of_two_leaves {t : BT} {w1 w2 : Nat} {V : Multiset Nat}
    (hl : leavesBT t = w1 ::ₘ w2 ::ₘ V) : ∃ l0 r0, t = .node l0 r0 := by
  cases t with
  | leaf w =>
      exfalso
      have hc := congrArg Multiset.card hl
      simp [leavesBT] at hc
  | node l0 r0 => exact ⟨l0, r0, rfl⟩

theorem mergeDown {t : BT} {w1 w2 : Nat} {V : Multiset Nat}
    (hl : leavesBT t = w1 ::ₘ w2 ::ₘ V) (h12 : w1 ≤ w2)
    (hmin : ∀ z ∈ V, w2 ≤ z) :
    ∃ t3, leavesBT t3 = (w1 + w2) ::ₘ V ∧ costBT t3 + w1 + w2 ≤ costBT t := by
  obtain ⟨l0, r0, ht⟩ := node_of_two_leaves hl
  obtain ⟨p, a, b, hp, hplen⟩ := deep_pair t l0 r0 ht
  have hpa : getAt t (p ++ [false]) = some (.leaf a) := by
    rw [getAt_append, hp]
    rfl
  have hpb : getAt t (p ++ [true]) = some (.leaf b) := by
    rw [getAt_append, hp]
    rfl
  have hab : (p ++ [false]) ≠ (p ++ [true]) := by
    intro hcon
    have := List.append_cancel_left hcon
    simp at this
  have hpalen : (p ++ [false]).length = hgtBT t := by
    simp only [List.length_append, List.length_singleton]
    omega
  have hpblen : (p ++ [true]).length = hgtBT t := by
    simp only [List.length_append, List.length_singleton]
    omega
  have hmin1 : ∀ z ∈ leavesBT t, w1 ≤ z := by
    intro z hz
    rw [hl] at hz
    rcases Multiset.mem_cons.mp hz with rfl | hz
    · exact le_refl _
    rcases Multiset.mem_cons.mp hz with rfl | hz
    · exact h12
    · exact le_trans h12 (hmin z hz)
  have hw1mem : w1 ∈ leavesBT t := by
    rw [hl]
    exact Multiset.mem_cons_self _ _
  obtain ⟨q1, hq1⟩ := leaf_pos_of_mem hw1mem
  obtain ⟨t1, h1pa, hz1, hlv1, hhg1, hcost1⟩ :
      ∃ t1, getAt t1 (p ++ [false]) = some (BT.leaf w1) ∧
        (∃ z, getAt t1 (p ++ [true]) = some (BT.leaf z)) ∧
        leavesBT t1 = leavesBT t ∧ hgtBT t1 = hgtBT t ∧
        costBT t1 ≤ costBT t := by
    by_cases hqa : q1 = p ++ [false]
    · exact ⟨t, by rw [← hqa]; exact hq1, ⟨b, hpb⟩, rfl, rfl, le_refl _⟩
    · obtain ⟨t1, h1q1, h1pa, hlv, hhg, hct, hfr⟩ := swap_leaves hq1 hpa hqa
      refine ⟨t1, h1pa, ?_, hlv, hhg, ?_⟩
      · by_cases hqb : q1 = p ++ [true]
        · exact ⟨a, by rw [← hqb]; exact h1q1⟩
        · exact ⟨b, hfr _ b hpb (fun h => hqb h.symm) (fun h => hab h.symm)⟩
      · have hqlen : q1.length ≤ (p ++ [false]).length := by
          have := getAt_length_le hq1
          omega
        have hwa : w1 ≤ a := hmin1 a (mem_of_leaf_pos hpa)
        have key := mul_add_mul_le_mul_add_mul hqlen hwa
        linarith
  obtain ⟨z, h1pb⟩ := hz1
  obtain ⟨V0, hV0⟩ := leaf_pair_sub h1pa h1pb hab
  have hzV : z ::ₘ V0 = w2 ::ₘ V := by
    have h1 : w1 ::ₘ z ::ₘ V0 = w1 ::ₘ w2 ::ₘ V := by
      rw [← hV0, hlv1, hl]
    exact (Multiset.cons_inj_right w1).mp h1
  have hw2z : w2 ≤ z := by
    have hzmem : z ∈ w2 ::ₘ V := by
      rw [← hzV]
      exact Multiset.mem_cons_self _ _
    rcases Multiset.mem_cons.mp hzmem with rfl | hz
    · exact le_refl _
    · exact hmin z hz
  obtain ⟨t2, h2pa, h2pb, hlv2, hcost2⟩ :
      ∃ t2, getAt t2 (p ++ [false]) = some (BT.leaf w1) ∧
        getAt t2 (p ++ [true]) = some (BT.leaf w2) ∧
        leavesBT t2 = leavesBT t1 ∧ costBT t2 ≤ costBT t1 := by
    by_cases hzw : z = w2
    · exact ⟨t1, h1pa, by rw [← hzw]; exact h1pb, rfl, le_refl _⟩
    · have hw2V0 : w2 ∈ V0 := by
        have : w2 ∈ z ::ₘ V0 := by
          rw [hzV]
          exact Multiset.mem_cons_self _ _
        rcases Multiset.mem_cons.mp this with h | h
        · exact absurd h.symm hzw
        · exact h
      have hV0' : leavesBT t1 = w1 ::ₘ z ::ₘ V0 := hV0
      obtain ⟨q2, hq2ne, hq2⟩ := leaf_pos_alt h1pa hV0'
        (Multiset.mem_cons_of_mem hw2V0)
      have hq2nb : (p ++ [true]) ≠ q2 := by
        intro hcon
        rw [← hcon] at hq2
        rw [h1pb] at hq2
        exact hzw (BT.leaf.injEq .. ▸ (Option.some.inj hq2))
      obtain ⟨t2, h2pb, h2q2, hlv, hhg, hct, hfr⟩ :=
        swap_leaves h1pb hq2 hq2nb
      refine ⟨t2, ?_, h2pb, hlv, ?_⟩
      · exact hfr _ w1 h1pa hab hq2ne.symm
      · have hqlen : q2.length ≤ (p ++ [true]).length := by
          have := getAt_length_le hq2
          omega
        have key := mul_add_mul_le_mul_add_mul hqlen hw2z
        linarith
  have hp2 : getAt t2 p = some (.node (.leaf w1) (.leaf w2)) := by
    rw [getAt_append] at h2pa h2pb
    cases hu : getAt t2 p with
    | none =>
        rw [hu] at h2pa
        simp at h2pa
    | some u =>
        rw [hu] at h2pa h2pb
        simp only [Option.some_bind] at h2pa h2pb
        cases u with
        | leaf w => simp [getAt] at h2pa
        | node ul ur =>
            have hul : ul = .leaf w1 := by
              rw [show getAt (BT.node ul ur) [false] = getAt ul [] from rfl,
                getAt_nil] at h2pa
              exact Option.some.inj h2pa
            have hur : ur = .leaf w2 := by
              rw [show getAt (BT.node ul ur) [true] = getAt ur [] from rfl,
                getAt_nil] at h2pb
              exact Option.some.inj h2pb
            rw [hul, hur]
  obtain ⟨t3, ht3⟩ := setAt_exists hp2 (.leaf (w1 + w2))
  have hlv3 := setAt_leaves hp2 ht3
  have hc3 := setAt_cost hp2 ht3
  simp only [leavesBT] at hlv3
  simp only [costBT, wsumBT] at hc3
  refine ⟨t3, ?_, by linarith⟩
  have hfin : leavesBT t3 + ({w1} + {w2}) =
      ((w1 + w2) ::ₘ V) + ({w1} + {w2}) := by
    rw [hlv3, hlv2, hlv1, hl]
    rw [← Multiset.singleton_add, ← Multiset.singleton_add,
      ← Multiset.singleton_add]
    ac_rfl
  exact add_right_cancel hfin

/-- A comb-shaped tree holding a given nonempty list of weights, witnessing
that every nonempty weight multiset is realised by some tree. -/
def combL : Nat → List Nat → BT
  | w, [] => .leaf w
  | w, v :: vs => .node (.leaf w) (combL v vs)

theorem combL_leaves (w : Nat) (vs : List Nat) :
    leavesBT (combL w vs) = w ::ₘ ↑vs := by
  induction vs generalizing w with
  | nil => rfl
  | cons v vs ih =>
      simp only [combL, leavesBT, ih]
      rw [Multiset.cons_coe, ← Multiset.singleton_add, Multiset.singleton_add,
        ← Multiset.cons_coe]

/-- `n` is the cost of some tree whose leaf-weight multiset is `W`. -/
def isCost (W : Multiset Nat) (n : Nat) : Prop :=
  ∃ t : BT, leavesBT t = W ∧ costBT t = n

theorem isCost_nonempty {W : Multiset Nat} (hW : W ≠ 0) :
    ∃ n, isCost W n := by
  obtain ⟨l, hl⟩ := Quotient.exists_rep W
  cases l with
  | nil =>
      exfalso
      apply hW
      rw [← hl]
      rfl
  | cons w vs =>
      refine ⟨costBT (combL w vs), combL w vs, ?_, rfl⟩
      rw [combL_leaves, Multiset.cons_coe]
      exact hl

theorem optCost_le {W : Multiset Nat} {t : BT} (h : leavesBT t = W) :
    sInf {n | isCost W n} ≤ costBT t :=
  Nat.sInf_le ⟨t, h, rfl⟩

theorem optCost_attained {W : Multiset Nat} (hW : W ≠ 0) :
    isCost W (sInf {n | isCost W n}) :=
  Nat.sInf_mem (isCost_nonempty hW)

theorem optCost_singleton (w : Nat) :
    sInf {n | isCost ({w} : Multiset Nat) n} = 0 := by
  have h0 : sInf {n | isCost ({w} : Multiset Nat) n} ≤ 0 :=
    Nat.sInf_le ⟨.leaf w, rfl, rfl⟩
  omega

theorem optCost_rec {w1 w2 : Nat} {V : Multiset Nat}
    (h12 : w1 ≤ w2) (hmin : ∀ z ∈ V, w2 ≤ z) :
    sInf {n | isCost (w1 ::ₘ w2 ::ₘ V) n} =
      sInf {n | isCost ((w1 + w2) ::ₘ V) n} + w1 + w2 := by
  apply le_antisymm
  · obtain ⟨t, hlt, hct⟩ := optCost_attained (W := (w1 + w2) ::ₘ V) (by simp)
    have hmem : (w1 + w2) ∈ leavesBT t := by
      rw [hlt]
      exact Multiset.mem_cons_self _ _
    obtain ⟨q, hq⟩ := leaf_pos_of_mem hmem
    obtain ⟨t2, ht2⟩ := setAt_exists hq (.node (.leaf w1) (.leaf w2))
    have hlv := setAt_leaves hq ht2
    have hc := setAt_cost hq ht2
    simp only [leavesBT, costBT, wsumBT] at hlv hc
    have hlv2 : leavesBT t2 = w1 ::ₘ w2 ::ₘ V := by
      have he : leavesBT t2 + {w1 + w2} = (w1 ::ₘ w2 ::ₘ V) + {w1 + w2} := by
        rw [hlv, hlt]
        rw [← Multiset.singleton_add, ← Multiset.singleton_add,
          ← Multiset.singleton_add]
        ac_rfl
      exact add_right_cancel he
    have hle := optCost_le hlv2
    have hcost2 : costBT t2 = costBT t + w1 + w2 := by linarith
    omega
  · obtain ⟨t, hlt, hct⟩ := optCost_attained (W := w1 ::ₘ w2 ::ₘ V) (by simp)
    obtain ⟨t3, hl3, hc3⟩ := mergeDown hlt h12 hmin
    have hle := optCost_le hl3
    omega

/-! ## The shape of the built tree and its weighted path length -/

/-- The shape of a Huffman tree with the leaf weights (frequencies) kept and
the characters and cached internal weights dropped. -/
def toBT : HuffmanNode → BT
  | .leaf _ f => .leaf f
  | .node _ l r => .node (toBT l) (toBT r)

/-- The stored weight of every internal node is the sum of its children's
stored weights (the invariant `build_huffman_tree` maintains). -/
def WFn : HuffmanNode → Prop
  | .leaf _ _ => True
  | .node f l r => f = HuffmanNode.freq l + HuffmanNode.freq r ∧ WFn l ∧ WFn r

theorem WFn_wsum {n : HuffmanNode} (h : WFn n) : wsumBT (toBT n) = n.freq := by
  induction n with
  | leaf c f => rfl
  | node f l r ihl ihr =>
      obtain ⟨hf, hl, hr⟩ := h
      simp only [toBT, wsumBT, HuffmanNode.freq]
      rw [ihl hl, ihr hr, hf]

theorem dictGet?_append_left {α β : Type} [DecidableEq α]
    {l1 : List (α × β)} (l2 : List (α × β)) {c : α}
    (h : c ∈ l1.map Prod.fst) :
    dictGet? (l1 ++ l2) c = dictGet? l1 c := by
  induction l1 with
  | nil => simp at h
  | cons p rest ih =>
      obtain ⟨k, v⟩ := p
      by_cases hk : c = k
      · simp [dictGet?, hk]
      · simp only [List.map_cons, List.mem_cons] at h
        rcases h with h | h
        · exact absurd h hk
        · simp [dictGet?, hk, ih h]

theorem dictGet?_append_right {α β : Type} [DecidableEq α]
    {l1 : List (α × β)} (l2 : List (α × β)) {c : α}
    (h : c ∉ l1.map Prod.fst) :
    dictGet? (l1 ++ l2) c = dictGet? l2 c := by
  induction l1 with
  | nil => simp
  | cons p rest ih =>
      obtain ⟨k, v⟩ := p
      simp only [List.map_cons, List.mem_cons] at h
      push_neg at h
      simp only [List.cons_append, dictGet?, if_neg h.1]
      exact ih h.2

/-- The weighted sum `Σ freq · codeword length` over the leaves of a tree,
with codewords looked up in the generated table, is the weighted path length
of the tree shape (plus the prefix length once per leaf weight). -/
theorem pairs_cost_sum (n : HuffmanNode) :
    ∀ (pre : List Bool), (leafChars n).Nodup →
      ((leafPairs n).map (fun cf =>
        cf.2 * ((dictGet? (codeEntries n pre) cf.1).getD []).length)).sum =
      costBT (toBT n) + pre.length * wsumBT (toBT n) := by
  induction n with
  | leaf c f =>
      intro pre _
      simp [leafPairs, codeEntries, dictGet?, costBT, toBT, wsumBT,
        Nat.mul_comm]
  | node f l r ihl ihr =>
      intro pre hnd
      have hchars : leafChars (HuffmanNode.node f l r) =
          leafChars l ++ leafChars r := by
        simp [leafChars, leafPairs]
      rw [hchars] at hnd
      obtain ⟨hndl, hndr, hdisj⟩ := List.nodup_append.mp hnd
      simp only [leafPairs, codeEntries, List.map_append, List.sum_append]
      have hLeft : ((leafPairs l).map (fun cf => cf.2 *
          ((dictGet? (codeEntries l (pre ++ [false]) ++
            codeEntries r (pre ++ [true])) cf.1).getD []).length)) =
          ((leafPairs l).map (fun cf =>
            cf.2 * ((dictGet? (codeEntries l (pre ++ [false])) cf.1).getD []).length)) := by
        apply List.map_congr_left
        intro cf hcf
        have hc : cf.1 ∈ (codeEntries l (pre ++ [false])).map Prod.fst := by
          rw [codeEntries_map_fst]
          exact List.mem_map_of_mem Prod.fst hcf
        rw [dictGet?_append_left _ hc]
      have hRight : ((leafPairs r).map (fun cf => cf.2 *
          ((dictGet? (codeEntries l (pre ++ [false]) ++
            codeEntries r (pre ++ [true])) cf.1).getD []).length)) =
          ((leafPairs r).map (fun cf =>
            cf.2 * ((dictGet? (codeEntries r (pre ++ [true])) cf.1).getD []).length)) := by
        apply List.map_congr_left
        intro cf hcf
        have hcr : cf.1 ∈ leafChars r := List.mem_map_of_mem Prod.fst hcf
        have hc : cf.1 ∉ (codeEntries l (pre ++ [false])).map Prod.fst := by
          rw [codeEntries_map_fst]
          intro hmem
          exact hdisj hmem hcr
        rw [dictGet?_append_right _ hc]
      rw [hLeft, hRight, ihl _ hndl, ihr _ hndr]
      simp only [toBT, costBT, wsumBT, List.length_append,
        List.length_singleton]
      ring

theorem sum_map_of_coe_eq {α : Type} {l1 l2 : List α}
    (h : (↑l1 : Multiset α) = ↑l2) (f : α → Nat) :
    (l1.map f).sum = (l2.map f).sum := by
  have := congrArg (fun M : Multiset α => (M.map f).sum) h
  simpa [Multiset.map_coe, Multiset.sum_coe] using this

/-- The program's weighted codeword-length sum over a frequency table is the
weighted path length of the tree it built. -/
theorem progCost_eq {ft : List (Char × Nat)} {root : HuffmanNode}
    (h : build_huffman_tree ft = some root)
    (hnd : (ft.map Prod.fst).Nodup) :
    (ft.map (fun cf => cf.2 *
      ((dictGet? (codeEntries root []) cf.1).getD []).length)).sum =
    costBT (toBT root) := by
  have hperm := build_huffman_tree_pairs h
  have hchars := leafChars_nodup_of_build h hnd
  rw [← sum_map_of_coe_eq hperm
    (fun cf => cf.2 * ((dictGet? (codeEntries root []) cf.1).getD []).length)]
  have := pairs_cost_sum root [] hchars
  simpa using this

theorem singleton_cost (x : HuffmanNode) :
    costBT (toBT x) = ([x].map (fun n => costBT (toBT n))).sum +
      sInf {n | isCost (↑([x].map HuffmanNode.freq)) n} := by
  rw [show ((↑([x].map HuffmanNode.freq) : Multiset Nat)) =
      ({x.freq} : Multiset Nat) by simp, optCost_singleton]
  simp

theorem buildLoop_cost :
    ∀ (fuel : Nat) (h : List HuffmanNode) (root : HuffmanNode),
      isHeap h → (∀ n ∈ h, WFn n) → h ≠ [] → h.length ≤ fuel + 1 →
      buildLoop fuel h = [root] →
      costBT (toBT root) = (h.map (fun n => costBT (toBT n))).sum +
        sInf {n | isCost (↑(h.map HuffmanNode.freq)) n} := by
  intro fuel
  induction fuel with
  | zero =>
      intro h root hh hwf hne hlen hloop
      simp only [buildLoop] at hloop
      rw [hloop]
      exact singleton_cost root
  | succ fuel ih =>
      intro h root hh hwf hne hlen hloop
      by_cases hlen2 : 2 ≤ h.length
      · obtain ⟨⟨n1, h1, n2, h2, hp1, hp2, hmin1, hmin2, hms, hmerge,
          hstep, hheap'⟩, _⟩ := build_merge_step h fuel hh hlen2
        have hs1 := heappop_spec hp1
        have hs2 := heappop_spec hp2
        have hpush := heappush_perm h2 (mergeStep n1 n2)
        have hn1h : n1 ∈ h := by
          have : n1 ∈ (↑h : Multiset HuffmanNode) := by
            rw [hms]
            exact Multiset.mem_cons_self _ _
          exact Multiset.mem_coe.mp this
        have hn2h : n2 ∈ h := by
          have : n2 ∈ (↑h : Multiset HuffmanNode) := by
            rw [hms]
            exact Multiset.mem_cons_of_mem (Multiset.mem_cons_self _ _)
          exact Multiset.mem_coe.mp this
        have hmemh : ∀ n ∈ h2, n ∈ h := by
          intro n hn
          have h1m : n ∈ (↑h1 : Multiset HuffmanNode) := by
            rw [hs2.1]
            exact Multiset.mem_cons_of_mem (Multiset.mem_coe.mpr hn)
          have h0m : n ∈ (↑h : Multiset HuffmanNode) := by
            rw [hs1.1]
            exact Multiset.mem_cons_of_mem h1m
          exact Multiset.mem_coe.mp h0m
        have hwf' : ∀ n ∈ heappush h2 (mergeStep n1 n2), WFn n := by
          intro n hn
          have hcn : n ∈ (↑(heappush h2 (mergeStep n1 n2)) :
              Multiset HuffmanNode) := Multiset.mem_coe.mpr hn
          rw [hpush] at hcn
          rcases Multiset.mem_add.mp hcn with hcn | hcn
          · exact hwf n (hmemh n (Multiset.mem_coe.mp hcn))
          · rw [Multiset.mem_singleton.mp hcn]
            exact ⟨rfl, hwf n1 hn1h, hwf n2 hn2h⟩
        have hlen' : (heappush h2 (mergeStep n1 n2)).length ≤ fuel + 1 := by
          rw [heappush_length]
          omega
        have hne' : heappush h2 (mergeStep n1 n2) ≠ [] := by
          intro hcon
          have := heappush_length h2 (mergeStep n1 n2)
          rw [hcon] at this
          simp at this
        rw [hstep] at hloop
        have ihres := ih (heappush h2 (mergeStep n1 n2)) root hheap' hwf'
          hne' hlen' hloop
        have hSh : (h.map (fun n => costBT (toBT n))).sum =
            costBT (toBT n1) + (costBT (toBT n2) +
              (h2.map (fun n => costBT (toBT n))).sum) := by
          have he : ((↑h : Multiset HuffmanNode).map
              (fun n => costBT (toBT n))).sum =
              ((n1 ::ₘ n2 ::ₘ (↑h2 : Multiset HuffmanNode)).map
                (fun n => costBT (toBT n))).sum := by
            rw [hms]
          simpa [Multiset.map_coe, Multiset.sum_coe] using he
        have hSp : ((heappush h2 (mergeStep n1 n2)).map
            (fun n => costBT (toBT n))).sum =
            (h2.map (fun n => costBT (toBT n))).sum +
              costBT (toBT (mergeStep n1 n2)) := by
          have he : ((↑(heappush h2 (mergeStep n1 n2)) :
              Multiset HuffmanNode).map (fun n => costBT (toBT n))).sum =
              (((↑h2 : Multiset HuffmanNode) + {mergeStep n1 n2}).map
                (fun n => costBT (toBT n))).sum := by
            rw [hpush]
          simpa [Multiset.map_coe, Multiset.sum_coe] using he
        have hg_merge : costBT (toBT (mergeStep n1 n2)) =
            costBT (toBT n1) + costBT (toBT n2) + n1.freq + n2.freq := by
          show costBT (.node (toBT n1) (toBT n2)) = _
          simp only [costBT]
          rw [WFn_wsum (hwf n1 hn1h), WFn_wsum (hwf n2 hn2h)]
        have hW : (↑(h.map HuffmanNode.freq) : Multiset Nat) =
            n1.freq ::ₘ n2.freq ::ₘ ↑(h2.map HuffmanNode.freq) := by
          have he := congrArg (Multiset.map HuffmanNode.freq) hms
          simpa [Multiset.map_coe] using he
        have hW' : (↑((heappush h2 (mergeStep n1 n2)).map HuffmanNode.freq) :
            Multiset Nat) =
            (n1.freq + n2.freq) ::ₘ ↑(h2.map HuffmanNode.freq) := by
          have he := congrArg (Multiset.map HuffmanNode.freq) hpush
          simp only [Multiset.map_coe, Multiset.map_add,
            Multiset.map_singleton] at he
          rw [he]
          rw [show HuffmanNode.freq (mergeStep n1 n2) =
            n1.freq + n2.freq from rfl]
          rw [add_comm]
          rw [Multiset.singleton_add]
        have hrecmin : ∀ z ∈ (↑(h2.map HuffmanNode.freq) : Multiset Nat),
            n2.freq ≤ z := by
          intro z hz
          rw [Multiset.mem_coe] at hz
          obtain ⟨y, hy, rfl⟩ := List.mem_map.mp hz
          apply hmin2
          have : y ∈ (↑h1 : Multiset HuffmanNode) := by
            rw [hs2.1]
            exact Multiset.mem_cons_of_mem (Multiset.mem_coe.mpr hy)
          exact Multiset.mem_coe.mp this
        have hrec := optCost_rec (hmin1 n2 hn2h) hrecmin
        rw [hSh, hW, hrec]
        rw [hSp, hW'] at ihres
        rw [hg_merge] at ihres
        omega
      · simp only [buildLoop] at hloop
        rw [if_neg (show ¬1 < h.length by omega)] at hloop
        rw [hloop]
        exact singleton_cost root

/-- The tree built by `build_huffman_tree` attains the minimum weighted path
length over all trees with the table's weight multiset at the leaves. -/
theorem build_cost_opt {ft : List (Char × Nat)} {root : HuffmanNode}
    (h : build_huffman_tree ft = some root) :
    costBT (toBT root) = sInf {n | isCost (↑(ft.map Prod.snd)) n} := by
  have hne : ft ≠ [] := by
    intro hcon
    rw [hcon] at h
    simp [build_huffman_tree] at h
  obtain ⟨root2, hb2, hloop⟩ := build_huffman_tree_root hne
  have hroots : root2 = root := by
    rw [h] at hb2
    exact (Option.some.inj hb2).symm
  rw [hroots] at hloop
  have hperm : (↑(ft.foldl (fun h cf => heappush h (.leaf cf.1 cf.2)) []) :
      Multiset HuffmanNode) =
      ↑(ft.map fun cf => HuffmanNode.leaf cf.1 cf.2) := by
    simpa using foldl_heappush_perm ft []
  have hheap : isHeap (ft.foldl (fun h cf => heappush h (.leaf cf.1 cf.2)) []) :=
    foldl_heappush_isHeap ft [] (by intro j hj hj0; simp at hj)
  have hwf : ∀ n ∈ ft.foldl (fun h cf => heappush h (.leaf cf.1 cf.2)) [],
      WFn n := by
    intro n hn
    have hm : n ∈ (↑(ft.map fun cf => HuffmanNode.leaf cf.1 cf.2) :
        Multiset HuffmanNode) := by
      rw [← hperm]
      exact Multiset.mem_coe.mpr hn
    obtain ⟨cf, hcf, rfl⟩ := List.mem_map.mp (Multiset.mem_coe.mp hm)
    trivial
  have hlenft : (ft.foldl (fun h cf => heappush h (.leaf cf.1 cf.2)) []).length
      = ft.length := by
    rw [foldl_heappush_length]
    simp
  have hne2 : ft.foldl (fun h cf => heappush h (.leaf cf.1 cf.2)) [] ≠ [] := by
    intro hcon
    rw [hcon] at hlenft
    exact hne (List.eq_nil_of_length_eq_zero hlenft.symm)
  have hres := buildLoop_cost _ _ root hheap hwf hne2 (by omega) hloop
  rw [hres]
  have hS0 : ((ft.foldl (fun h cf => heappush h (.leaf cf.1 cf.2)) []).map
      (fun n => costBT (toBT n))).sum = 0 := by
    have he := sum_map_of_coe_eq hperm (fun n => costBT (toBT n))
    rw [he, List.map_map]
    have : ((fun n => costBT (toBT n)) ∘ fun cf : Char × Nat =>
        HuffmanNode.leaf cf.1 cf.2) = fun _ => 0 := by
      funext cf
      rfl
    rw [this]
    simp
  have hWseed : (↑((ft.foldl (fun h cf => heappush h (.leaf cf.1 cf.2))
      []).map HuffmanNode.freq) : Multiset Nat) = ↑(ft.map Prod.snd) := by
    have he := congrArg (Multiset.map HuffmanNode.freq) hperm
    simp only [Multiset.map_coe, List.map_map] at he
    rw [he]
    rfl
  rw [hS0, hWseed]
  omega

/-! ## From an arbitrary prefix-free assignment to a tree -/

/-- Modelled from the spec: a prefix-free assignment is an arbitrary list of
(weight, codeword) entries with pairwise mutually non-prefixing codewords;
`part b` keeps the entries whose codeword starts with bit `b` and strips that
bit. -/
def part (b : Bool) : List (Nat × List Bool) → List (Nat × List Bool)
  | [] => []
  | e :: rest =>
      match e.2 with
      | [] => part b rest
      | b' :: tl => if b' = b then (e.1, tl) :: part b rest else part b rest

/-- The symmetric non-prefix relation between assignment entries. -/
def NPref (a b : Nat × List Bool) : Prop :=
  isPrefB a.2 b.2 = false ∧ isPrefB b.2 a.2 = false

theorem part_mem {b : Bool} :
    ∀ {L : List (Nat × List Bool)} {x : Nat × List Bool},
      x ∈ part b L → ∃ e ∈ L, e.1 = x.1 ∧ e.2 = b :: x.2 := by
  intro L
  induction L with
  | nil => intro x hx; simp [part] at hx
  | cons e rest ih =>
      intro x hx
      cases he : e.2 with
      | nil =>
          simp only [part, he] at hx
          obtain ⟨e2, he2, hp⟩ := ih hx
          exact ⟨e2, List.mem_cons_of_mem e he2, hp⟩
      | cons b' tl =>
          simp only [part, he] at hx
          by_cases hb : b' = b
          · rw [if_pos hb] at hx
            rcases List.mem_cons.mp hx with rfl | hx
            · exact ⟨e, List.mem_cons_self e rest, rfl, by rw [he, hb]⟩
            · obtain ⟨e2, he2, hp⟩ := ih hx
              exact ⟨e2, List.mem_cons_of_mem e he2, hp⟩
          · rw [if_neg hb] at hx
            obtain ⟨e2, he2, hp⟩ := ih hx
            exact ⟨e2, List.mem_cons_of_mem e he2, hp⟩

theorem isPrefB_cons_same (b : Bool) (p q : List Bool) :
    isPrefB (b :: p) (b :: q) = isPrefB p q := by
  simp [isPrefB]

theorem part_pairwise (b : Bool) :
    ∀ {L : List (Nat × List Bool)}, List.Pairwise NPref L →
      List.Pairwise NPref (part b L) := by
  intro L
  induction L with
  | nil => intro _; simp [part]
  | cons e rest ih =>
      intro h
      obtain ⟨hhead, htail⟩ := List.pairwise_cons.mp h
      cases he : e.2 with
      | nil =>
          simp only [part, he]
          exact ih htail
      | cons b' tl =>
          simp only [part, he]
          by_cases hb : b' = b
          · rw [if_pos hb]
            refine List.pairwise_cons.mpr ⟨?_, ih htail⟩
            intro x hx
            obtain ⟨e2, he2, hx1, hx2⟩ := part_mem hx
            have hr := hhead e2 he2
            obtain ⟨hr1, hr2⟩ := hr
            rw [he, hx2, hb] at hr1 hr2
            rw [isPrefB_cons_same] at hr1 hr2
            exact ⟨hr1, hr2⟩
          · rw [if_neg hb]
            exact ih htail

theorem part_fst_ms :
    ∀ {L : List (Nat × List Bool)}, (∀ e ∈ L, e.2 ≠ []) →
      (↑((part false L).map Prod.fst) : Multiset Nat) +
        ↑((part true L).map Prod.fst) = ↑(L.map Prod.fst) := by
  intro L
  induction L with
  | nil => intro _; simp [part]
  | cons e rest ih =>
      intro hne
      have hrest : ∀ e2 ∈ rest, e2.2 ≠ [] :=
        fun e2 h2 => hne e2 (List.mem_cons_of_mem e h2)
      cases he : e.2 with
      | nil => exact absurd he (hne e (List.mem_cons_self e rest))
      | cons b' tl =>
          cases b' with
          | false =>
              simp only [part, he]
              simp only [if_true, show (false = true) = False by simp,
                show (true = false) = False by simp, if_false]
              simp only [List.map_cons, ← Multiset.cons_coe,
                Multiset.cons_add]
              rw [ih hrest]
          | true =>
              simp only [part, he]
              simp only [if_true, show (false = true) = False by simp,
                show (true = false) = False by simp, if_false]
              simp only [List.map_cons, ← Multiset.cons_coe,
                Multiset.add_cons]
              rw [ih hrest]

theorem part_wlen :
    ∀ {L : List (Nat × List Bool)}, (∀ e ∈ L, e.2 ≠ []) →
      ((part false L).map (fun e => e.1 * e.2.length)).sum +
        ((part true L).map (fun e => e.1 * e.2.length)).sum +
        (((part false L).map Prod.fst).sum +
          ((part true L).map Prod.fst).sum) =
      (L.map (fun e => e.1 * e.2.length)).sum := by
  intro L
  induction L with
  | nil => intro _; simp [part]
  | cons e rest ih =>
      intro hne
      have hrest : ∀ e2 ∈ rest, e2.2 ≠ [] :=
        fun e2 h2 => hne e2 (List.mem_cons_of_mem e h2)
      have hih := ih hrest
      cases he : e.2 with
      | nil => exact absurd he (hne e (List.mem_cons_self e rest))
      | cons b' tl =>
          have hsplit : e.1 * (b' :: tl).length =
              e.1 * tl.length + e.1 := by
            simp [List.length_cons]
            ring
          cases b' with
          | false =>
              simp only [part, he]
              simp only [if_true, show (false = true) = False by simp,
                show (true = false) = False by simp, if_false]
              simp only [List.map_cons, List.sum_cons, he, hsplit]
              linarith
          | true =>
              simp only [part, he]
              simp only [if_true, show (false = true) = False by simp,
                show (true = false) = False by simp, if_false]
              simp only [List.map_cons, List.sum_cons, he, hsplit]
              linarith

theorem part_len :
    ∀ {L : List (Nat × List Bool)}, (∀ e ∈ L, e.2 ≠ []) →
      ((part false L).map (fun e => e.2.length)).sum +
        ((part true L).map (fun e => e.2.length)).sum +
        (part false L).length + (part true L).length =
      (L.map (fun e => e.2.length)).sum := by
  intro L
  induction L with
  | nil => intro _; simp [part]
  | cons e rest ih =>
      intro hne
      have hrest : ∀ e2 ∈ rest, e2.2 ≠ [] :=
        fun e2 h2 => hne e2 (List.mem_cons_of_mem e h2)
      have hih := ih hrest
      cases he : e.2 with
      | nil => exact absurd he (hne e (List.mem_cons_self e rest))
      | cons b' tl =>
          cases b' with
          | false =>
              simp only [part, he]
              simp only [if_true, show (false = true) = False by simp,
                show (true = false) = False by simp, if_false]
              simp only [List.map_cons, List.sum_cons, he,
                List.length_cons]
              omega
          | true =>
              simp only [part, he]
              simp only [if_true, show (false = true) = False by simp,
                show (true = false) = False by simp, if_false]
              simp only [List.map_cons, List.sum_cons, he,
                List.length_cons]
              omega

theorem wsumBT_eq_leaves_sum (t : BT) : wsumBT t = (leavesBT t).sum := by
  induction t with
  | leaf w => simp [wsumBT, leavesBT]
  | node l r ihl ihr => simp [wsumBT, leavesBT, ihl, ihr]

theorem assign_tree :
    ∀ (N : Nat) (L : List (Nat × List Bool)), L ≠ [] →
      (L.map (fun e => e.2.length)).sum ≤ N →
      List.Pairwise NPref L →
      ∃ t : BT, leavesBT t = ↑(L.map Prod.fst) ∧
        costBT t ≤ (L.map (fun e => e.1 * e.2.length)).sum := by
  intro N
  induction N with
  | zero =>
      intro L hne hlen hpw
      cases L with
      | nil => exact absurd rfl hne
      | cons e1 L2 =>
          cases L2 with
          | nil => exact ⟨.leaf e1.1, by simp [leavesBT], by simp [costBT]⟩
          | cons e2 rest =>
              exfalso
              have hr := (List.pairwise_cons.mp hpw).1 e2 (by simp)
              have hne1 : e1.2 ≠ [] := by
                intro hcon
                have hx := hr.1
                rw [hcon] at hx
                simp [isPrefB] at hx
              have hp1 : 0 < e1.2.length := List.length_pos.mpr hne1
              simp only [List.map_cons, List.sum_cons] at hlen
              omega
  | succ N ih =>
      intro L hne hlen hpw
      cases L with
      | nil => exact absurd rfl hne
      | cons e1 L2 =>
          cases L2 with
          | nil => exact ⟨.leaf e1.1, by simp [leavesBT], by simp [costBT]⟩
          | cons e2 rest =>
              have hnonempty : ∀ e ∈ e1 :: e2 :: rest, e.2 ≠ [] := by
                intro e he hcon
                obtain ⟨hhead, -⟩ := List.pairwise_cons.mp hpw
                rcases List.mem_cons.mp he with rfl | hm
                · have hx := (hhead e2 (by simp)).1
                  rw [hcon] at hx
                  simp [isPrefB] at hx
                · have hx := (hhead e hm).2
                  rw [hcon] at hx
                  simp [isPrefB] at hx
              set LL := e1 :: e2 :: rest with hL2
              have hLlen : LL.length = rest.length + 2 := by
                rw [hL2]
                simp
              have hfst := part_fst_ms hnonempty
              have hwlen := part_wlen hnonempty
              have hplen := part_len hnonempty
              have hpw0 := part_pairwise false hpw
              have hpw1 := part_pairwise true hpw
              by_cases h0 : part false LL = []
              · have h1ne : part true LL ≠ [] := by
                  intro hcon
                  have hc := congrArg Multiset.card hfst
                  rw [h0, hcon] at hc
                  simp at hc
                  omega
                have hlen1 : ((part true LL).map (fun e => e.2.length)).sum
                    ≤ N := by
                  rw [h0] at hplen
                  simp at hplen
                  have hp1pos := List.length_pos.mpr h1ne
                  omega
                obtain ⟨t1, hlv1, hc1⟩ := ih (part true LL) h1ne hlen1 hpw1
                refine ⟨t1, ?_, ?_⟩
                · rw [hlv1]
                  rw [h0] at hfst
                  simpa using hfst
                · rw [h0] at hwlen
                  simp at hwlen
                  omega
              · by_cases h1 : part true LL = []
                · have hlen0 : ((part false LL).map
                      (fun e => e.2.length)).sum ≤ N := by
                    rw [h1] at hplen
                    simp at hplen
                    have hp0pos := List.length_pos.mpr h0
                    omega
                  obtain ⟨t0, hlv0, hc0⟩ := ih (part false LL) h0 hlen0 hpw0
                  refine ⟨t0, ?_, ?_⟩
                  · rw [hlv0]
                    rw [h1] at hfst
                    simpa using hfst
                  · rw [h1] at hwlen
                    simp at hwlen
                    omega
                · have hp0pos := List.length_pos.mpr h0
                  have hp1pos := List.length_pos.mpr h1
                  have hlen0 : ((part false LL).map
                      (fun e => e.2.length)).sum ≤ N := by omega
                  have hlen1 : ((part true LL).map
                      (fun e => e.2.length)).sum ≤ N := by omega
                  obtain ⟨t0, hlv0, hc0⟩ := ih (part false LL) h0 hlen0 hpw0
                  obtain ⟨t1, hlv1, hc1⟩ := ih (part true LL) h1 hlen1 hpw1
                  refine ⟨.node t0 t1, ?_, ?_⟩
                  · simp only [leavesBT]
                    rw [hlv0, hlv1]
                    exact hfst
                  · simp only [costBT]
                    have hw0 : wsumBT t0 =
                        ((part false LL).map Prod.fst).sum := by
                      rw [wsumBT_eq_leaves_sum, hlv0, Multiset.sum_coe]
                    have hw1 : wsumBT t1 =
                        ((part true LL).map Prod.fst).sum := by
                      rw [wsumBT_eq_leaves_sum, hlv1, Multiset.sum_coe]
                    rw [hw0, hw1]
                    linarith

/-- claim C5: for every frequency table (non-empty, with the unique keys a
Python dict guarantees), the code table produced by `build_huffman_tree`
followed by `generate_codes` minimises `Σ freq(s) · len(codeword(s))` among
all prefix-free codeword assignments for the table's symbols. -/
theorem huffman_code_optimal (ft : List (Char × Nat)) (root : HuffmanNode)
    (hb : build_huffman_tree ft = some root)
    (hnd : (ft.map Prod.fst).Nodup)
    (f : Char → List Bool)
    (hpf : ∀ c1 ∈ ft.map Prod.fst, ∀ c2 ∈ ft.map Prod.fst, c1 ≠ c2 →
      isPrefB (f c1) (f c2) = false) :
    (ft.map (fun cf => cf.2 *
      ((dictGet? (generate_codes (some root) [] [] []).1 cf.1).getD []).length)).sum ≤
    (ft.map (fun cf => cf.2 * (f cf.1).length)).sum := by
  have hneft : ft ≠ [] := by
    intro hcon
    rw [hcon] at hb
    simp [build_huffman_tree] at hb
  have hndc := leafChars_nodup_of_build hb hnd
  have hgc := generate_codes_eq_entries hndc
  have h1 : (generate_codes (some root) [] [] []).1 = codeEntries root [] := by
    rw [hgc]
  have hrw : (ft.map (fun cf => cf.2 *
      ((dictGet? (generate_codes (some root) [] [] []).1 cf.1).getD []).length)) =
      (ft.map (fun cf => cf.2 *
      ((dictGet? (codeEntries root []) cf.1).getD []).length)) := by
    rw [h1]
  rw [hrw, progCost_eq hb hnd, build_cost_opt hb]
  have hpft : ft.Pairwise (fun a b => a.1 ≠ b.1) := List.pairwise_map.mp hnd
  have hpwL : (ft.map (fun cf => (cf.2, f cf.1))).Pairwise NPref := by
    apply List.pairwise_map.mpr
    refine List.Pairwise.imp_of_mem ?_ hpft
    intro a b ha hb2 hab
    refine ⟨?_, ?_⟩
    · exact hpf a.1 (List.mem_map_of_mem _ ha) b.1
        (List.mem_map_of_mem _ hb2) hab
    · exact hpf b.1 (List.mem_map_of_mem _ hb2) a.1
        (List.mem_map_of_mem _ ha) hab.symm
  have hneL : ft.map (fun cf => (cf.2, f cf.1)) ≠ [] := by
    intro hcon
    have hlc := congrArg List.length hcon
    simp at hlc
    exact hneft hlc
  obtain ⟨t, hlvt, hct⟩ := assign_tree
    (((ft.map (fun cf => (cf.2, f cf.1))).map (fun e => e.2.length)).sum)
    (ft.map (fun cf => (cf.2, f cf.1))) hneL (le_refl _) hpwL
  have hlv2 : leavesBT t = ↑(ft.map Prod.snd) := by
    rw [hlvt, List.map_map]
    rfl
  have hc2 : ((ft.map (fun cf => (cf.2, f cf.1))).map
      (fun e => e.1 * e.2.length)).sum =
      (ft.map (fun cf => cf.2 * (f cf.1).length)).sum := by
    rw [List.map_map]
    rfl
  have hle := optCost_le hlv2
  rw [hc2] at hct
  omega

theorem huffman_code_optimal_witness :
    build_huffman_tree [('a', 2), ('b', 1)] =
      some (.node 3 (.leaf 'b' 1) (.leaf 'a' 2)) ∧
    ([(('a' : Char), 2), ('b', 1)].map Prod.fst).Nodup ∧
    ([(('a' : Char), 2), ('b', 1)].map (fun cf => cf.2 *
      ((dictGet? (generate_codes (some (HuffmanNode.node 3 (.leaf 'b' 1)
        (.leaf 'a' 2))) [] [] []).1 cf.1).getD []).length)).sum ≤
    ([(('a' : Char), 2), ('b', 1)].map (fun cf => cf.2 *
      ((fun c => if c = 'a' then [false] else [true]) cf.1).length)).sum :=
  ⟨by decide, by decide,
    huffman_code_optimal [('a', 2), ('b', 1)]
      (.node 3 (.leaf 'b' 1) (.leaf 'a' 2)) (by decide) (by decide)
      (fun c => if c = 'a' then [false] else [true]) (by decide)⟩
